import Mathlib

/-!
# Verification of the gymnastics result-extraction scripts

Shallow embedding, in Lean 4, of the three Python scripts
(`individual_allaround.py`, `team_allaround.py`, `events.py`) that extract
structured scoring records from gymnastics competition result PDFs.

Modelling conventions:
* Python strings are modelled as `String` / `List Char`; all character-class
  tests (`\s`, `\d`, `[A-Z]`, ...) use the ASCII reading, which is exact for
  the report layouts these scripts parse.
* Python floats are modelled as `Rat` (exact decimal arithmetic standing in
  for IEEE doubles; every literal the scripts parse has at most three decimal
  places).
* The "unknown" markers (`float("nan")`, `None`) are modelled as `none` of an
  `Option` type, so that unknown is distinguishable from every number.
* Each regular expression of the source is embedded as an explicit
  backtracking matcher over `List Char` that follows the pattern
  constructor-by-constructor; the priority order of alternatives (greedy /
  lazy quantifiers) mirrors the Python `re` engine.
* The line-scanning loops are embedded as fuel-indexed structural recursions
  (fuel bounds are proved sufficient; this keeps every definition
  kernel-evaluable).
-/

namespace Gym

/-! ## Character classes (ASCII model of Python `\s`, `\d`, `[A-Z]`, `[a-z]`) -/

/-- Python whitespace class `\s` (ASCII part), also the set stripped by
`str.strip()` and split on by `str.split()`. -/
def isSpaceChar (c : Char) : Bool :=
  c = ' ' || c = '\t' || c = '\n' || c = '\r' || c = '\x0b' || c = '\x0c'

/-- Python digit class `\d` (ASCII part). -/
def isDigitChar (c : Char) : Bool := '0' ≤ c && c ≤ '9'

/-- Regex class `[A-Z]`. -/
def isUpperChar (c : Char) : Bool := 'A' ≤ c && c ≤ 'Z'

/-- Regex class `[a-z]`. -/
def isLowerChar (c : Char) : Bool := 'a' ≤ c && c ≤ 'z'

/-- The character class `[A-Za-z'\-]` used for name tokens in `ATH_HDR`. -/
def isNameChar (c : Char) : Bool :=
  isUpperChar c || isLowerChar c || c = Char.ofNat 39 || c = '-'

/-! ## String primitives: `str.strip`, `re.sub(r"\s+", " ", ·)`, `str.split()` -/

/-- Drop trailing whitespace (the second half of `str.strip()`). -/
def stripTrail (cs : List Char) : List Char :=
  (cs.reverse.dropWhile isSpaceChar).reverse

/-- Python `str.strip()`: drop leading and trailing whitespace. -/
def stripChars (cs : List Char) : List Char :=
  stripTrail (cs.dropWhile isSpaceChar)

/-- One pass of `re.sub(r"\s+", " ", ·)`: every maximal whitespace run becomes
a single `' '`.  The flag records whether the previous character was part of a
whitespace run already rewritten. -/
def collapseWS : Bool → List Char → List Char
  | _, [] => []
  | prev, c :: rest =>
    if isSpaceChar c then
      if prev then collapseWS true rest else ' ' :: collapseWS true rest
    else c :: collapseWS false rest

/-- `norm` of both scripts: `re.sub(r"\s+", " ", str(s).strip())`. -/
def normChars (cs : List Char) : List Char := collapseWS false (stripChars cs)

/-- `norm` at `String` level. -/
def norm (s : String) : String := ⟨normChars s.data⟩

/-- Helper for `str.split()`: accumulates the current (reversed) token. -/
def wordsAux (cur : List Char) : List Char → List (List Char)
  | [] => if cur.isEmpty then [] else [cur.reverse]
  | c :: rest =>
    if isSpaceChar c then
      if cur.isEmpty then wordsAux [] rest else cur.reverse :: wordsAux [] rest
    else wordsAux (c :: cur) rest

/-- Python `str.split()` (no separator): whitespace-separated tokens, empties
dropped. -/
def words (cs : List Char) : List (List Char) := wordsAux [] cs

/-- Python `" ".join`: concatenate with a single space between consecutive
pieces. -/
def joinSp : List (List Char) → List Char
  | [] => []
  | [p] => p
  | p :: rest => p ++ ' ' :: joinSp rest

/-- Join a token list with single spaces (`" ".join`). -/
def unwords (ws : List (List Char)) : List Char := joinSp ws

/-! ## Numbers -/

/-- Value of a digit string (`int(...)` on a `\d+` match). -/
def natOfDigits (ds : List Char) : Nat :=
  ds.foldl (fun n c => 10 * n + (c.toNat - 48)) 0

/-- `IS_FLOAT = re.compile(r"^-?\d+(?:\.\d+)?$")`, applied with `.match` to a
whitespace-free token. -/
def isFloatTok (cs : List Char) : Bool :=
  let body := match cs with
    | '-' :: t => t
    | t => t
  let intPart := body.takeWhile isDigitChar
  let rest := body.dropWhile isDigitChar
  if intPart.isEmpty then false
  else
    match rest with
    | [] => true
    | '.' :: frac => !frac.isEmpty && frac.all isDigitChar
    | _ => false

/-- Python `float(...)` on a token of shape `-?\d+(\.\d+)?` (the only shapes
the scripts ever pass to `float`, since every call is guarded by `IS_FLOAT` or
by a `\d{1,2}\.\d{3}`-style group).  Total function; on other strings Python
would raise, which is unreachable in the embedded pipelines. -/
def parseFloatTok (cs : List Char) : Rat :=
  let signed := match cs with
    | '-' :: _ => true
    | _ => false
  let body := match cs with
    | '-' :: t => t
    | t => t
  let intPart := body.takeWhile isDigitChar
  let rest := body.dropWhile isDigitChar
  let frac := match rest with
    | '.' :: f => f.takeWhile isDigitChar
    | _ => []
  let mag : Rat := (natOfDigits intPart : Rat) + (natOfDigits frac : Rat) / (10 ^ frac.length : Nat)
  if signed then -mag else mag

/-! ## Line Normalizer: `collapse_row` (identical in both all-around scripts)

```python
def collapse_row(row):
    parts = [str(x) for x in row.tolist() if str(x).strip() not in ("", "None", "nan")]
    return norm(" ".join(parts))
```
The raw cells are strings already (`str(x)` is the identity on them). -/

/-- The cell filter of `collapse_row`: keep a cell iff its stripped text is
none of `""`, `"None"`, `"nan"`. -/
def keepCell (s : String) : Bool :=
  !(decide ((⟨stripChars s.data⟩ : String) ∈ (["", "None", "nan"] : List String)))

/-- `collapse_row`: filter the cells, `" ".join` them, then `norm`. -/
def collapse_row (cells : List String) : String :=
  ⟨normChars (joinSp ((cells.filter keepCell).map String.data))⟩

/-! ## `parse_dscore_line` (individual pipeline)

```python
D_SCORE_RK = re.compile(r"(?P<D>\d{1,2}\.\d{3})\s+(?P<score>\d{1,2}\.\d{3})\s+\((?P<rk>\d+)\)")

def parse_dscore_line(line):
    line = norm(line)
    line = re.sub(r'(?<=\d\.\d{3})(?=\d)', ' ', line)
    triplets = [...D_SCORE_RK.finditer(line)...]
    floats = re.findall(r"\d{1,2}\.\d{3}", line)
    total = float(floats[-1]) if floats else None
    return triplets, total
```
-/

/-- Does the zero-width pattern `(?<=\d\.\d{3})(?=\d)` match at position `i`?
True iff the five characters before `i` are `digit '.' digit digit digit` and
the character at `i` is a digit.  `re.sub` inserts `' '` at every such
position. -/
def glueAt (cs : List Char) (i : Nat) : Bool :=
  match cs.get? (i - 5), cs.get? (i - 4), cs.get? (i - 3),
        cs.get? (i - 2), cs.get? (i - 1), cs.get? i with
  | some a, some b, some c, some d, some e, some f =>
    5 ≤ i && isDigitChar a && b = '.' && isDigitChar c && isDigitChar d &&
      isDigitChar e && isDigitChar f
  | _, _, _, _, _, _ => false

/-- `re.sub(r'(?<=\d\.\d{3})(?=\d)', ' ', ·)`: insert a space at every
position where the lookaround pair matches (the pattern is zero-width, so the
substitution inserts, never replaces). -/
def deGlue (cs : List Char) : List Char :=
  (cs.enum.map (fun p => if glueAt cs p.1 then [' ', p.2] else [p.2])).flatten

/-- Match `\d{2}\.\d{3}` at the head of the list; returns the value and the
rest.  (The two-digit alternative of the greedy `\d{1,2}`.) -/
def decNum2 : List Char → Option (Rat × List Char)
  | a :: b :: '.' :: c :: d :: e :: rest =>
    if isDigitChar a && isDigitChar b && isDigitChar c && isDigitChar d && isDigitChar e then
      some ((natOfDigits [a, b] : Rat) + (natOfDigits [c, d, e] : Rat) / 1000, rest)
    else none
  | _ => none

/-- Match `\d{1}\.\d{3}` at the head of the list (the one-digit alternative). -/
def decNum1 : List Char → Option (Rat × List Char)
  | a :: '.' :: c :: d :: e :: rest =>
    if isDigitChar a && isDigitChar c && isDigitChar d && isDigitChar e then
      some ((natOfDigits [a] : Rat) + (natOfDigits [c, d, e] : Rat) / 1000, rest)
    else none
  | _ => none

/-- Match `\d{1,2}\.\d{3}` at the head of the list, greedy: the two-digit
alternative is preferred, as in the `re` engine. -/
def matchFloatHere (cs : List Char) : Option (Rat × List Char) :=
  (decNum2 cs).orElse (fun _ => decNum1 cs)

/-- Scan for `re.findall(r"\d{1,2}\.\d{3}", ·)`: left to right, non-overlapping;
on a match continue after its end, otherwise advance one character.
`fuel` bounds the number of scan steps; `cs.length` always suffices. -/
def findFloatsGo : Nat → List Char → List Rat
  | 0, _ => []
  | _ + 1, [] => []
  | fuel + 1, c :: rest =>
    match matchFloatHere (c :: rest) with
    | some (v, rest') => v :: findFloatsGo fuel rest'
    | none => findFloatsGo fuel rest

/-- One difficulty/score/rank triplet extracted by `D_SCORE_RK`. -/
structure DTrip where
  d : Rat
  score : Rat
  rk : Nat
deriving DecidableEq, Repr

/-- After the D group: `\s+(?P<score>\d{1,2}\.\d{3})\s+\((?P<rk>\d+)\)`.
The `\s+` runs are maximal-munch (each is followed by a non-space class). -/
def tripletAfterD (dv : Rat) (cs : List Char) : Option (DTrip × List Char) :=
  let sp := cs.takeWhile isSpaceChar
  let cs1 := cs.dropWhile isSpaceChar
  if sp.isEmpty then none
  else
    (matchFloatHere cs1).bind fun (sv, cs2) =>
      let sp2 := cs2.takeWhile isSpaceChar
      let cs3 := cs2.dropWhile isSpaceChar
      if sp2.isEmpty then none
      else
        match cs3 with
        | '(' :: cs4 =>
          let ds := cs4.takeWhile isDigitChar
          let cs5 := cs4.dropWhile isDigitChar
          if ds.isEmpty then none
          else
            match cs5 with
            | ')' :: rest => some (⟨dv, sv, natOfDigits ds⟩, rest)
            | _ => none
        | _ => none

/-- Match the whole `D_SCORE_RK` pattern at the head of the list.  The greedy
`\d{1,2}` of the D group backtracks into the tail: the two-digit alternative
is tried with the full continuation first, then the one-digit one. -/
def matchTripletHere (cs : List Char) : Option (DTrip × List Char) :=
  ((decNum2 cs).bind fun (dv, r) => tripletAfterD dv r).orElse
    (fun _ => (decNum1 cs).bind fun (dv, r) => tripletAfterD dv r)

/-- Scan for `D_SCORE_RK.finditer`: left to right, non-overlapping. -/
def findTripletsGo : Nat → List Char → List DTrip
  | 0, _ => []
  | _ + 1, [] => []
  | fuel + 1, c :: rest =>
    match matchTripletHere (c :: rest) with
    | some (t, rest') => t :: findTripletsGo fuel rest'
    | none => findTripletsGo fuel rest

/-- `parse_dscore_line`: normalize, de-glue, extract all `D_SCORE_RK` groups,
and take the last `\d{1,2}\.\d{3}` match anywhere in the line as the total. -/
def parse_dscore_line (line : String) : List DTrip × Option Rat :=
  let l := deGlue (normChars line.data)
  (findTripletsGo l.length l, (findFloatsGo l.length l).getLast?)

/-! ## Execution/penalty parsers

Individual pipeline (`parse_e_pen_line`): exactly four groups or `None`.

```python
def parse_e_pen_line(line):
    toks = norm(line).split()
    out = []; i = 0
    for _ in range(4):
        if i >= len(toks) or not IS_FLOAT.match(toks[i]): return None
        E = float(toks[i]); i += 1
        Pen = 0.0
        if i < len(toks) and toks[i].startswith('-') and IS_FLOAT.match(toks[i]):
            Pen = float(toks[i]); i += 1
        out.append((E, Pen))
    return out
```

Team pipeline (`parse_e_pen`): same scan, but a partial list is returned when
fewer than `max_groups` groups are found.
-/

/-- The loop body of `parse_e_pen_line`, over the remaining group count. -/
def ePenLineGo : Nat → List (List Char) → Option (List (Rat × Rat))
  | 0, _ => some []
  | _ + 1, [] => none
  | n + 1, tok :: rest =>
    if isFloatTok tok then
      match rest with
      | tok2 :: rest2 =>
        if tok2.head? = some '-' && isFloatTok tok2 then
          (ePenLineGo n rest2).map (fun l => (parseFloatTok tok, parseFloatTok tok2) :: l)
        else
          (ePenLineGo n rest).map (fun l => (parseFloatTok tok, 0) :: l)
      | [] => (ePenLineGo n []).map (fun l => (parseFloatTok tok, 0) :: l)
    else none

/-- `parse_e_pen_line` (individual pipeline): `None` unless four full groups
are read. -/
def parse_e_pen_line (line : String) : Option (List (Rat × Rat)) :=
  ePenLineGo 4 (words (norm line).data)

/-- The loop of `parse_e_pen` (team pipeline), over the remaining group
count; stops (returning the partial list) on a non-float token or on
exhaustion. -/
def ePenGo : Nat → List (List Char) → List (Rat × Rat)
  | 0, _ => []
  | _ + 1, [] => []
  | n + 1, tok :: rest =>
    if isFloatTok tok then
      match rest with
      | tok2 :: rest2 =>
        if tok2.head? = some '-' && isFloatTok tok2 then
          (parseFloatTok tok, parseFloatTok tok2) :: ePenGo n rest2
        else
          (parseFloatTok tok, 0) :: ePenGo n rest
      | [] => [(parseFloatTok tok, 0)]
    else []

/-- `parse_e_pen(tokens, max_groups)` (team pipeline). -/
def parse_e_pen (tokens : List (List Char)) (maxGroups : Nat) : List (Rat × Rat) :=
  ePenGo maxGroups tokens

/-! ## Team-pipeline token helpers -/

/-- `floats_from(s)`: the whitespace-split tokens of `s` that match
`IS_FLOAT`. -/
def floats_from (s : String) : List (List Char) :=
  (words s.data).filter isFloatTok

/-- The pairing loop of `parse_ds_pairs`: consume two values per step, at most
`n` pairs (`n = 4` at the call site); a trailing unpaired value is dropped. -/
def pairDSGo : Nat → List Rat → List (Rat × Rat)
  | 0, _ => []
  | _ + 1, [] => []
  | _ + 1, [_] => []
  | n + 1, d :: s :: rest => (d, s) :: pairDSGo n rest

/-- `parse_ds_pairs(tokens)`: `vals = list(map(float, tokens))`, then pair
consecutively `(D1,S1),(D2,S2),...` up to 4 pairs.  (`float` is modelled by
`parseFloatTok`; at every call site the tokens come from `floats_from`, so
they all match `IS_FLOAT`.) -/
def parse_ds_pairs (tokens : List (List Char)) : List (Rat × Rat) :=
  pairDSGo 4 (tokens.map parseFloatTok)

/-! ## `IDENTITY_RE` (individual pipeline)

```python
IDENTITY_RE = re.compile(r"""
    ^\s*(?P<rank>\d+)\s+(?P<bib>\d+)\s+
    (?P<name>(?:[A-Z][^\d]{0,40}\s?)+?)\s+(?P<noc>[A-Z]{3})\s+D\s+E\s*$
    """, re.VERBOSE)
```
applied with `.match`.  The leading `\s*`, the `\d+` runs and the inter-field
`\s+` runs are all followed by a disjoint character class, so maximal munch is
exact for them; the name group needs genuine backtracking, implemented below
in continuation-passing style with the `re` engine's priority order (lazy
outer `+?`, greedy inner `{0,40}` and `\s?`). -/

/-- The continuation result: remaining input mapped to an optional answer. -/
abbrev MCont (α : Type) := List Char → Option α

/-- Greedy `\s?`: prefer consuming one whitespace character. -/
def spaceOpt (k : MCont α) : MCont α
  | [] => k []
  | c :: rest => if isSpaceChar c then (k rest).orElse (fun _ => k (c :: rest)) else k (c :: rest)

/-- Greedy `[^\d]{0,40}` followed by `\s?`: prefer the longest class run,
backtracking one character at a time. -/
def classRun (k : MCont α) : Nat → MCont α
  | 0, cs => spaceOpt k cs
  | _ + 1, [] => spaceOpt k []
  | n + 1, c :: rest =>
    if !isDigitChar c then
      (classRun k n rest).orElse (fun _ => spaceOpt k (c :: rest))
    else spaceOpt k (c :: rest)

/-- One repetition `[A-Z][^\d]{0,40}\s?` of the name group. -/
def nameRep (k : MCont α) : MCont α
  | [] => none
  | c :: rest => if isUpperChar c then classRun k 40 rest else none

/-- The lazy `(?:[A-Z][^\d]{0,40}\s?)+?`: after each repetition try the
continuation first, then a further repetition.  Each repetition consumes at
least one character, so `cs.length + 1` fuel is never exhausted. -/
def nameRepsLazy (k : MCont α) : Nat → MCont α
  | 0, _ => none
  | fuel + 1, cs => nameRep (fun cs' => (k cs').orElse (fun _ => nameRepsLazy k fuel cs')) cs

/-- The tail `\s+(?P<noc>[A-Z]{3})\s+D\s+E\s*$` of `IDENTITY_RE`; returns the
NOC capture.  (`$` matches at the end or before a final newline; newline is
whitespace, so the condition collapses to "only whitespace remains".) -/
def identityTail (cs : List Char) : Option (List Char) :=
  let sp := cs.takeWhile isSpaceChar
  let cs1 := cs.dropWhile isSpaceChar
  if sp.isEmpty then none
  else
    match cs1 with
    | a :: b :: c :: cs2 =>
      if isUpperChar a && isUpperChar b && isUpperChar c then
        let sp2 := cs2.takeWhile isSpaceChar
        let cs3 := cs2.dropWhile isSpaceChar
        if sp2.isEmpty then none
        else
          match cs3 with
          | 'D' :: cs4 =>
            let sp3 := cs4.takeWhile isSpaceChar
            let cs5 := cs4.dropWhile isSpaceChar
            if sp3.isEmpty then none
            else
              match cs5 with
              | 'E' :: cs6 => if (cs6.dropWhile isSpaceChar).isEmpty then some [a, b, c] else none
              | _ => none
          | _ => none
      else none
    | _ => none

/-- `IDENTITY_RE.match(line)`: returns `(rank, bib, name.strip(), noc)` as in
the record assembly of `parse_pdf`. -/
def identityMatch (s : String) : Option (Nat × Nat × String × String) :=
  let cs0 := s.data.dropWhile isSpaceChar
  let rankDs := cs0.takeWhile isDigitChar
  let cs1 := cs0.dropWhile isDigitChar
  if rankDs.isEmpty then none
  else
    let sp1 := cs1.takeWhile isSpaceChar
    let cs2 := cs1.dropWhile isSpaceChar
    if sp1.isEmpty then none
    else
      let bibDs := cs2.takeWhile isDigitChar
      let cs3 := cs2.dropWhile isDigitChar
      if bibDs.isEmpty then none
      else
        let sp2 := cs3.takeWhile isSpaceChar
        let nameStart := cs3.dropWhile isSpaceChar
        if sp2.isEmpty then none
        else
          match nameRepsLazy
              (fun cs' => (identityTail cs').map (fun noc => (nameStart.length - cs'.length, noc)))
              (nameStart.length + 1) nameStart with
          | some (nameLen, noc) =>
            some (natOfDigits rankDs, natOfDigits bibDs,
                  (⟨stripChars (nameStart.take nameLen)⟩ : String), (⟨noc⟩ : String))
          | none => none

/-! ## `TEAM_HDR` and `ATH_HDR` (team pipeline)

```python
TEAM_HDR = re.compile(r"""^\s*(?P<trank>\d+)\s+(?P<noc>[A-Z]{3})\s*-\s*.*?
    (?P<v>\d{1,3}\.\d{3})\s*\(\d+\)\s+(?P<ub>\d{1,3}\.\d{3})\s*\(\d+\)\s+
    (?P<bb>\d{1,3}\.\d{3})\s*\(\d+\)\s+(?P<fx>\d{1,3}\.\d{3})\s*\(\d+\)\s+
    (?P<ttotal>\d{2,3}\.\d{3})\s*$""", re.VERBOSE)

ATH_HDR = re.compile(r"""^\s*(?P<bib>\d{3,})\s+
    (?P<name>[A-Z][A-Za-z'\-]+(?:\s[A-Z][A-Za-z'\-]+)*)\s+D\s+E\s*
    (?P<trail>.*)$""", re.VERBOSE)
```
Only the `trank`/`noc` captures of `TEAM_HDR` and the `bib`/`name`/`trail`
captures of `ATH_HDR` are used by `parse_pdf_team`. -/

/-- Match `\d{1,3}\.\d{3}` at the head of the list.  The digit count of the
integer part is forced by the position of the dot, so no backtracking is
needed here. -/
def decNum13 (cs : List Char) : Option (Rat × List Char) :=
  let ds := cs.takeWhile isDigitChar
  let rest := cs.dropWhile isDigitChar
  if ds.isEmpty || 3 < ds.length then none
  else
    match rest with
    | '.' :: a :: b :: c :: rest2 =>
      if isDigitChar a && isDigitChar b && isDigitChar c then
        some ((natOfDigits ds : Rat) + (natOfDigits [a, b, c] : Rat) / 1000, rest2)
      else none
    | _ => none

/-- One `\d{1,3}\.\d{3}\s*\(\d+\)` group of `TEAM_HDR`; returns the rest. -/
def scoreRkGroup (cs : List Char) : Option (List Char) :=
  (decNum13 cs).bind fun (_, r) =>
    match r.dropWhile isSpaceChar with
    | '(' :: r2 =>
      let ds := r2.takeWhile isDigitChar
      let r3 := r2.dropWhile isDigitChar
      if ds.isEmpty then none
      else
        match r3 with
        | ')' :: r4 => some r4
        | _ => none
    | _ => none

/-- Mandatory `\s+` (followed by a digit, hence maximal munch). -/
def spacePlus (cs : List Char) : Option (List Char) :=
  if (cs.takeWhile isSpaceChar).isEmpty then none else some (cs.dropWhile isSpaceChar)

/-- The four `score(rk)` groups plus team total of `TEAM_HDR`, anchored at the
current position: `g\s+g\s+g\s+g\s+(?P<ttotal>\d{2,3}\.\d{3})\s*$`. -/
def teamGroups (cs : List Char) : Bool :=
  (((scoreRkGroup cs).bind spacePlus).bind fun c1 =>
    ((scoreRkGroup c1).bind spacePlus).bind fun c2 =>
      ((scoreRkGroup c2).bind spacePlus).bind fun c3 =>
        ((scoreRkGroup c3).bind spacePlus).bind fun c4 =>
          let ds := c4.takeWhile isDigitChar
          let r := c4.dropWhile isDigitChar
          if ds.length < 2 || 3 < ds.length then none
          else
            match r with
            | '.' :: a :: b :: c :: r2 =>
              if isDigitChar a && isDigitChar b && isDigitChar c &&
                  (r2.dropWhile isSpaceChar).isEmpty then some () else none
            | _ => none).isSome

/-- The `\s*.*?` gap before the first score group of `TEAM_HDR`: try every
start offset left to right; while still inside the `\s*` zone any whitespace
may be skipped, afterwards `.` cannot cross a newline. -/
def teamTailScan : Nat → Bool → List Char → Bool
  | 0, _, _ => false
  | fuel + 1, inWS, cs =>
    if teamGroups cs then true
    else
      match cs with
      | [] => false
      | c :: rest =>
        if c = '\n' then (if inWS then teamTailScan fuel true rest else false)
        else teamTailScan fuel (inWS && isSpaceChar c) rest

/-- `TEAM_HDR.match(line)`: returns `(int(trank), noc)` as used by
`parse_pdf_team`. -/
def teamHdrMatch (s : String) : Option (Nat × String) :=
  let cs0 := s.data.dropWhile isSpaceChar
  let rds := cs0.takeWhile isDigitChar
  let cs1 := cs0.dropWhile isDigitChar
  if rds.isEmpty then none
  else
    (spacePlus cs1).bind fun cs2 =>
      match cs2 with
      | a :: b :: c :: cs3 =>
        if isUpperChar a && isUpperChar b && isUpperChar c then
          match cs3.dropWhile isSpaceChar with
          | '-' :: cs4 =>
            if teamTailScan (cs4.length + 1) true cs4 then
              some (natOfDigits rds, (⟨[a, b, c]⟩ : String))
            else none
          | _ => none
        else none
      | _ => none

/-- One name word `[A-Z][A-Za-z'\-]+` (at least two characters). -/
def nameWord (cs : List Char) : Option (List Char) :=
  match cs with
  | c :: rest =>
    if isUpperChar c then
      let w := rest.takeWhile isNameChar
      let r := rest.dropWhile isNameChar
      if w.isEmpty then none else some r
    else none
  | [] => none

/-- The greedy `(?:\s[A-Z][A-Za-z'\-]+)*` of the name group: prefer one more
`single-whitespace + word` repetition, backtracking to the continuation. -/
def nameStar (k : MCont α) : Nat → MCont α
  | 0, cs => k cs
  | fuel + 1, cs =>
    (match cs with
      | c :: rest =>
        if isSpaceChar c then
          (nameWord rest).bind fun r => nameStar k fuel r
        else none
      | [] => none).orElse (fun _ => k cs)

/-- The tail `\s+D\s+E\s*(?P<trail>.*)$` of `ATH_HDR`; returns the trail
capture (everything after the maximal `\s*`; `.*` cannot cross a newline
unless that newline ends the string). -/
def athTail (cs : List Char) : Option (List Char) :=
  (spacePlus cs).bind fun cs1 =>
    match cs1 with
    | 'D' :: cs2 =>
      (spacePlus cs2).bind fun cs3 =>
        match cs3 with
        | 'E' :: cs4 =>
          let r := cs4.dropWhile isSpaceChar
          if r.all (fun c => c ≠ '\n') then some r
          else if r.getLast? = some '\n' && r.dropLast.all (fun c => c ≠ '\n') then
            some r.dropLast
          else none
        | _ => none
    | _ => none

/-- `ATH_HDR.match(line)`: returns `(int(bib), name.strip(), trail)` as used
by `parse_pdf_team`. -/
def athHdrMatch (s : String) : Option (Nat × String × String) :=
  let cs0 := s.data.dropWhile isSpaceChar
  let bds := cs0.takeWhile isDigitChar
  let cs1 := cs0.dropWhile isDigitChar
  if bds.length < 3 then none
  else
    (spacePlus cs1).bind fun nameStart =>
      (nameWord nameStart).bind fun afterFirst =>
        match nameStar
            (fun cs' => (athTail cs').map (fun trail => (nameStart.length - cs'.length, trail)))
            (afterFirst.length + 1) afterFirst with
        | some (nameLen, trail) =>
          some (natOfDigits bds,
                (⟨stripChars (nameStart.take nameLen)⟩ : String), (⟨trail⟩ : String))
        | none => none

/-! ## Individual all-around assembly (`parse_pdf`, lines 77-118)

The loop over the filtered line list: for each `i`, if line `i` matches
`IDENTITY_RE`, lines `i-1` / `i+1` exist, the d-score line yields at least 4
triplets and the e/pen line parses (4 groups), emit one full record; otherwise
emit nothing for that line. -/

/-- One apparatus group of an individual record (all five fields present:
this pipeline never emits partial groups). -/
structure AppGroup where
  score : Rat
  d : Rat
  e : Rat
  pen : Rat
  rk : Nat
deriving DecidableEq, Repr

/-- One output record of the individual pipeline. -/
structure IndRec where
  rank : Nat
  bib : Nat
  name : String
  noc : String
  /-- apparatus groups, in `APPARATUS` order; always 4 of them. -/
  apps : List AppGroup
  total : Option Rat
deriving DecidableEq, Repr

/-- The body of one iteration of the `parse_pdf` loop: the record emitted for
line `i`, if any.  Mirrors lines 77-118 of `individual_allaround.py`
(`continue` becomes `none`). -/
def candidate (lines : List String) (i : Nat) : Option IndRec :=
  match lines.get? i with
  | none => none
  | some line =>
    match identityMatch line with
    | none => none
    | some (rank, bib, name, noc) =>
      if i = 0 ∨ lines.length ≤ i + 1 then none
      else
        match lines.get? (i - 1), lines.get? (i + 1) with
        | some dline, some eline =>
          let parsed := parse_dscore_line dline
          match parse_e_pen_line eline with
          | some epen =>
            if parsed.1.length < 4 ∨ epen.length < 4 then none
            else
              -- `d_trips[j]` / `epen[j]` for j = 0..3; the lengths are ≥ 4 here,
              -- so the fallthrough case is unreachable.
              match parsed.1, epen with
              | d0 :: d1 :: d2 :: d3 :: _, e0 :: e1 :: e2 :: e3 :: _ =>
                some { rank := rank, bib := bib, name := name, noc := noc,
                       apps := [⟨d0.score, d0.d, e0.1, e0.2, d0.rk⟩,
                                ⟨d1.score, d1.d, e1.1, e1.2, d1.rk⟩,
                                ⟨d2.score, d2.d, e2.1, e2.2, d2.rk⟩,
                                ⟨d3.score, d3.d, e3.1, e3.2, d3.rk⟩],
                       total := parsed.2 }
              | _, _ => none
          | none => none
        | _, _ => none

/-- The record list built by the `parse_pdf` loop from the filtered line
list (`for i, line in enumerate(lines)` with `continue` as skip). -/
def parse_pdf_lines (lines : List String) : List IndRec :=
  (List.range lines.length).filterMap (candidate lines)

/-! ## Team all-around assembly (`parse_pdf_team`, lines 79-147) -/

/-- One apparatus group of a team record; `none` is the script's unknown
marker (`float("nan")` for D/E/Pen/Score, `None` for Rk). -/
structure TeamApp where
  d : Option Rat
  e : Option Rat
  pen : Option Rat
  score : Option Rat
  rk : Option Nat
deriving DecidableEq, Repr

/-- One output record of the team pipeline. -/
structure TeamRec where
  rank : Nat
  bib : Nat
  name : String
  noc : String
  /-- apparatus groups in `APPARATUS` order; always 4 of them. -/
  apps : List TeamApp
  total : Option Rat
deriving DecidableEq, Repr

/-- An all-unknown apparatus group (`NaN` for D/E/Pen/Score, `None` for Rk). -/
def unkApp : TeamApp := ⟨none, none, none, none, none⟩

/-- Python `round(x, 3)` modelled over `Rat` (rounding to the nearest
multiple of `1/1000`; the model uses exact rationals where the script uses
IEEE doubles). -/
def round3 (q : Rat) : Rat := (round (q * 1000) : ℤ) / 1000

/-- Record assembly of `parse_pdf_team` (lines 119-141): with
`k = min(len(ds_pairs), len(epen), 4)`, apparatus `idx < k` gets the parsed
values, the rest get the unknown marker; `Rk` is always `None`; `Total` is
the rounded sum of the `k` scores, or unknown when `k = 0`.  (For
`idx ∈ {0,1,2,3}`, `idx < k` holds iff both `get?` lookups succeed, which the
`if` mirrors via the two lookups.) -/
def buildTeamRec (crank : Nat) (cnoc : String) (bib : Nat) (name : String)
    (dsPairs epen : List (Rat × Rat)) : TeamRec :=
  let k := min (min dsPairs.length epen.length) 4
  { rank := crank, bib := bib, name := name, noc := cnoc,
    apps := (List.range 4).map fun idx =>
      match dsPairs.get? idx, epen.get? idx with
      | some (dv, sv), some (ev, pv) => ⟨some dv, some ev, some pv, some sv, none⟩
      | _, _ => unkApp,
    total :=
      if 0 < k then
        some (round3 (((List.range 4).filterMap fun idx =>
          if idx < k then (dsPairs.get? idx).map Prod.snd else none).sum))
      else none }

/-- Is a line a scan terminator (`ATH_HDR.match(nxt) or TEAM_HDR.match(nxt)`)? -/
def isHeaderLine (s : String) : Bool :=
  (athHdrMatch s).isSome || (teamHdrMatch s).isSome

/-- The inner forward scan of `parse_pdf_team` (lines 104-114): starting at
`j`, consume the numeric tokens of each following line until the next
team/athlete header or the end; returns the stop index and the collected
E/Pen token pool.  `fuel ≥ lines.length - j` always suffices. -/
def scanE (lines : List String) : Nat → Nat → Nat × List (List Char)
  | 0, j => (j, [])
  | fuel + 1, j =>
    match lines.get? j with
    | none => (j, [])
    | some nxt =>
      if isHeaderLine nxt then (j, [])
      else
        let r := scanE lines fuel (j + 1)
        (r.1, floats_from nxt ++ r.2)

/-- The main `while i < len(lines)` loop of `parse_pdf_team` (lines 82-147),
instrumented with the index of the line that initiated each record (the
source keeps only the records; `parse_pdf_team_lines` projects the index
away).  `fuel ≥ lines.length` always suffices since every branch advances the
index by at least one. -/
def teamScanGo (lines : List String) : Nat → Nat → Option (Nat × String) → List (Nat × TeamRec)
  | 0, _, _ => []
  | fuel + 1, i, ctx =>
    match lines.get? i with
    | none => []
    | some ln =>
      match teamHdrMatch ln with
      | some (trank, noc) => teamScanGo lines fuel (i + 1) (some (trank, noc))
      | none =>
        match athHdrMatch ln, ctx with
        | some (bib, name, trail), some (crank, cnoc) =>
          let scan := scanE lines lines.length (i + 1)
          let dsPairs := parse_ds_pairs (floats_from trail)
          let epen := parse_e_pen scan.2 4
          (i, buildTeamRec crank cnoc bib name dsPairs epen) :: teamScanGo lines fuel scan.1 ctx
        | _, _ => teamScanGo lines fuel (i + 1) ctx

/-- The record list built by `parse_pdf_team` from the filtered line list. -/
def parse_pdf_team_lines (lines : List String) : List TeamRec :=
  (teamScanGo lines lines.length 0 none).map Prod.snd

/-! ## Schema normalizer of `parse_events_pdf` (events.py, lines 106-123)

```python
master_cols = []
for d in all_rows:
    for c in d.columns:
        if c not in master_cols:
            master_cols.append(c)
normed = [d.reindex(columns=master_cols) for d in all_rows]
```
A per-page block is modelled by its column-name list and its rows (one cell
per column, positionally); a cell is `Option String` with `none` as the
missing/NaN marker. -/

/-- One extracted per-page block (a cleaned `DataFrame`): column names plus
rows of cells aligned to them. -/
structure Block where
  cols : List String
  rows : List (List (Option String))
deriving DecidableEq, Repr

/-- The inner `for c in d.columns: if c not in master_cols: append` loop. -/
def addCols (acc : List String) : List String → List String
  | [] => acc
  | c :: cs => addCols (if c ∈ acc then acc else acc ++ [c]) cs

/-- `master_cols`: the union of all blocks' column lists in first-seen
order. -/
def masterCols (blocks : List Block) : List String :=
  blocks.foldl (fun acc b => addCols acc b.cols) []

/-- Position of a column name in a block's column list (first occurrence),
as used by the reindex step. -/
def colIndex : List String → String → Option Nat
  | [], _ => none
  | b :: bs, c => if b = c then some 0 else (colIndex bs c).map (· + 1)

/-- `d.reindex(columns=master_cols)` on one row: for each master column take
the block's cell at that column's position, or the missing marker when the
block lacks the column. -/
def reindexRow (bcols : List String) (row : List (Option String))
    (mcols : List String) : List (Option String) :=
  mcols.map fun c =>
    match colIndex bcols c with
    | some k => (row.get? k).getD none
    | none => none

/-- Specification-side formulation of first-seen-order deduplication: keep
each element's first occurrence, drop the later ones. -/
def firstSeen : List String → List String
  | [] => []
  | c :: cs => c :: firstSeen (cs.filter (fun c2 => c2 != c))
termination_by l => l.length
decreasing_by
  simp only [List.length_cons]
  exact Nat.lt_succ_of_le (List.length_filter_le _ _)

/-! ## Per-column numeric coercion (`pd.to_numeric`)

`events.py` line 123 uses `errors="ignore"` (convert the whole column, or
return it unchanged if any cell fails); `individual_allaround.py` line 131
uses `errors="coerce"` (failing cells become NaN). -/

/-- One cell value for the coercion step: already numeric, missing (NaN), or
text. -/
inductive CellVal where
  | num (q : Rat)
  | nan
  | str (s : String)
deriving DecidableEq, Repr

/-- Best-effort numeric parse of one text cell (`pd.to_numeric` on a single
string; the numeric grammar is modelled by `IS_FLOAT`-shaped literals, which
covers every value these reports contain). -/
def parseCellNum (s : String) : Option Rat :=
  if isFloatTok (stripChars s.data) then some (parseFloatTok (stripChars s.data)) else none

/-- `pd.to_numeric(col, errors="coerce")`: numbers and NaN pass through,
text parses to a number or becomes NaN. -/
def toNumericCoerce (col : List CellVal) : List CellVal :=
  col.map fun v =>
    match v with
    | .num q => .num q
    | .nan => .nan
    | .str s =>
      match parseCellNum s with
      | some q => .num q
      | none => .nan

/-- `pd.to_numeric(col, errors="ignore")`: convert the column if every cell
converts, otherwise return it unchanged. -/
def toNumericIgnore (col : List CellVal) : List CellVal :=
  if col.all fun v =>
      match v with
      | .str s => (parseCellNum s).isSome
      | _ => true
  then toNumericCoerce col
  else col

/-! ## Concrete sample inputs (used to instantiate the theorems below) -/

/-- A minimal well-formed individual all-around block: d-score line, identity
line, execution/penalty line. -/
def demoIndLines : List String :=
  ["5.300 13.233 (3) 5.600 14.100 (1) 5.000 13.000 (2) 5.200 13.600 (4) 53.933",
   "1 907 SMITH Jane USA D E",
   "7.933 8.500 8.000 -0.1 8.400"]

/-- The difficulty/score/rank line of the sample individual block. -/
def demoDLine : String :=
  "5.300 13.233 (3) 5.600 14.100 (1) 5.000 13.000 (2) 5.200 13.600 (4) 53.933"

/-- A minimal team all-around page: team header, athlete with two D/S pairs,
one numeric E/Pen line, a second athlete, a second team header. -/
def demoTeamLines : List String :=
  ["1 USA - Team A 43.299 (1) 42.000 (1) 41.000 (1) 40.500 (1) 166.799",
   "510 SMITH Jane D E 5.0 13.0 5.5 14.0",
   "8.0 8.5 -0.1",
   "511 DOE Ann D E 5.0 13.0",
   "2 GBR - Team B 43.299 (2) 42.000 (2) 41.000 (2) 40.500 (2) 166.799"]

end Gym

namespace Gym

/-! # Theorems -/

/-! ## Helper lemmas -/

/-- The individual e/pen parser performs the same scan as the team one, but
returns `none` instead of a partial group list. -/
theorem ePenLineGo_eq_ePenGo (n : Nat) :
    ∀ toks, ePenLineGo n toks =
      if (ePenGo n toks).length = n then some (ePenGo n toks) else none := by
  induction n with
  | zero => intro toks; simp [ePenLineGo, ePenGo]
  | succ n ih =>
    intro toks
    match toks with
    | [] => simp [ePenLineGo, ePenGo]
    | [tok] =>
      by_cases hf : isFloatTok tok
      · cases n with
        | zero => simp [ePenLineGo, ePenGo, hf]
        | succ m => simp [ePenLineGo, ePenGo, hf]
      · simp [ePenLineGo, ePenGo, hf]
    | tok :: tok2 :: rest2 =>
      by_cases hf : isFloatTok tok
      · by_cases hneg : (decide (tok2.head? = some '-') && isFloatTok tok2) = true
        · by_cases hl : (ePenGo n rest2).length = n <;>
            simp [ePenLineGo, ePenGo, hf, hneg, ih, hl]
        · by_cases hl : (ePenGo n (tok2 :: rest2)).length = n <;>
            simp [ePenLineGo, ePenGo, hf, hneg, ih, hl]
      · simp [ePenLineGo, ePenGo, hf]

/-- `ePenLineGo` succeeds only with exactly `n` groups. -/
theorem ePenLineGo_length {n : Nat} {toks : List (List Char)} {l : List (Rat × Rat)}
    (h : ePenLineGo n toks = some l) : l.length = n := by
  rw [ePenLineGo_eq_ePenGo] at h
  by_cases hl : (ePenGo n toks).length = n
  · rw [if_pos hl] at h; cases h; exact hl
  · rw [if_neg hl] at h; cases h

/-! ## C8: numeric coercion is idempotent -/

theorem toNumericCoerce_idem (col : List CellVal) :
    toNumericCoerce (toNumericCoerce col) = toNumericCoerce col := by
  unfold toNumericCoerce
  rw [List.map_map]
  apply List.map_congr_left
  intro v _
  cases v with
  | num q => rfl
  | nan => rfl
  | str s => cases h : parseCellNum s <;> simp [h]

theorem toNumericCoerce_no_str (col : List CellVal) :
    (toNumericCoerce col).all (fun v =>
      match v with
      | .str s => (parseCellNum s).isSome
      | _ => true) = true := by
  unfold toNumericCoerce
  rw [List.all_eq_true]
  intro v hv
  rw [List.mem_map] at hv
  obtain ⟨w, _, rfl⟩ := hv
  cases w with
  | num q => rfl
  | nan => rfl
  | str s => cases h : parseCellNum s <;> simp [h]

/-- C8.  The per-column numeric coercion step is idempotent, both in the
`errors="coerce"` form used by `parse_pdf` (`individual_allaround.py` line
131) and in the `errors="ignore"` form used by `parse_events_pdf`
(`events.py` line 123): applying the coercion to a column that is already the
result of the coercion produces the same values. -/
theorem claim_C8 (col : List CellVal) :
    toNumericCoerce (toNumericCoerce col) = toNumericCoerce col ∧
    toNumericIgnore (toNumericIgnore col) = toNumericIgnore col := by
  refine ⟨toNumericCoerce_idem col, ?_⟩
  unfold toNumericIgnore
  by_cases h : col.all (fun v =>
      match v with
      | .str s => (parseCellNum s).isSome
      | _ => true) = true
  · rw [if_pos h, if_pos (toNumericCoerce_no_str col), toNumericCoerce_idem]
  · rw [if_neg h, if_neg h]

/-! ## C10: `parse_ds_pairs` pairing behaviour -/

theorem pairDSGo_length (n : Nat) :
    ∀ vals : List Rat, (pairDSGo n vals).length = min (vals.length / 2) n := by
  induction n with
  | zero => intro vals; simp [pairDSGo]
  | succ n ih =>
    intro vals
    match vals with
    | [] => simp [pairDSGo]
    | [v] => simp [pairDSGo]
    | d :: s :: rest =>
      simp only [pairDSGo, List.length_cons, ih]
      omega

theorem pairDSGo_get? (n : Nat) :
    ∀ (vals : List Rat) (j : Nat) (p : Rat × Rat),
      (pairDSGo n vals).get? j = some p →
      vals.get? (2 * j) = some p.1 ∧ vals.get? (2 * j + 1) = some p.2 := by
  induction n with
  | zero => intro vals j p h; simp [pairDSGo] at h
  | succ n ih =>
    intro vals j p h
    match vals with
    | [] => simp [pairDSGo] at h
    | [v] => simp [pairDSGo] at h
    | d :: s :: rest =>
      match j with
      | 0 =>
        simp only [pairDSGo, List.get?_cons_zero, Option.some.injEq] at h
        subst h; simp
      | j + 1 =>
        simp only [pairDSGo, List.get?_cons_succ] at h
        have := ih rest j p h
        constructor
        · have h2 : 2 * (j + 1) = (2 * j) + 2 := by omega
          rw [h2]; simpa using this.1
        · have h2 : 2 * (j + 1) + 1 = (2 * j + 1) + 2 := by omega
          rw [h2]; simpa using this.2

/-- C10.  `parse_ds_pairs` pairs its token list consecutively as
`(D1,S1),(D2,S2),...`, produces `min(len/2, 4)` pairs (so at most 4), and
silently discards a trailing unpaired token: a list of odd length `2n+1` with
`n < 4` yields exactly `n` pairs, never a partial pair. -/
theorem claim_C10 :
    (∀ tokens : List (List Char),
        (parse_ds_pairs tokens).length = min (tokens.length / 2) 4) ∧
    (∀ (tokens : List (List Char)) (j : Nat) (p : Rat × Rat),
        (parse_ds_pairs tokens).get? j = some p →
        ∃ t1 t2, tokens.get? (2 * j) = some t1 ∧ tokens.get? (2 * j + 1) = some t2 ∧
          p = (parseFloatTok t1, parseFloatTok t2)) ∧
    (∀ (tokens : List (List Char)) (n : Nat),
        tokens.length = 2 * n + 1 → n < 4 → (parse_ds_pairs tokens).length = n) := by
  refine ⟨?_, ?_, ?_⟩
  · intro tokens
    unfold parse_ds_pairs
    rw [pairDSGo_length]
    simp
  · intro tokens j p h
    unfold parse_ds_pairs at h
    have := pairDSGo_get? 4 (tokens.map parseFloatTok) j p h
    rw [List.get?_map, List.get?_map] at this
    obtain ⟨h1, h2⟩ := this
    match ht1 : tokens.get? (2 * j), ht2 : tokens.get? (2 * j + 1) with
    | some t1, some t2 =>
      rw [ht1] at h1; rw [ht2] at h2
      simp only [Option.map_some'] at h1 h2
      exact ⟨t1, t2, rfl, rfl, by
        cases p
        simp only [Option.some.injEq] at h1 h2
        simp [← h1, ← h2]⟩
    | none, _ => rw [ht1] at h1; simp at h1
    | _, none => rw [ht2] at h2; simp at h2
  · intro tokens n hlen hn
    unfold parse_ds_pairs
    rw [pairDSGo_length]
    simp only [List.length_map, hlen]
    omega

/-- Witness for C10 at a concrete odd-length token list. -/
theorem claim_C10_witness :
    (parse_ds_pairs [['5', '.', '3'], ['1', '3', '.', '2'], ['5', '.', '6']]).length = 1 :=
  claim_C10.2.2 _ 1 (by decide) (by decide)

/-! ## C3: execution/penalty matcher behaviour -/

theorem ePenGo_nil (n : Nat) : ePenGo n [] = [] := by
  cases n <;> rfl

theorem ePenGo_length_le (n : Nat) :
    ∀ toks, (ePenGo n toks).length ≤ n := by
  induction n with
  | zero => intro toks; simp [ePenGo]
  | succ n ih =>
    intro toks
    match toks with
    | [] => simp [ePenGo]
    | [tok] =>
      by_cases hf : isFloatTok tok <;> simp [ePenGo, hf]
    | tok :: tok2 :: rest2 =>
      by_cases hf : isFloatTok tok
      · by_cases hneg : (decide (tok2.head? = some '-') && isFloatTok tok2) = true
        · simpa [ePenGo, hf, hneg] using ih rest2
        · simpa [ePenGo, hf, hneg] using ih (tok2 :: rest2)
      · simp [ePenGo, hf]

/-- Counterexample to C3 as stated: on the single-group line `"13.0"` the
individual pipeline's execution/penalty matcher `parse_e_pen_line` returns
`None` — an error marker — rather than the partial group list `[(13.0, 0.0)]`
that the same scan produces in the team pipeline's `parse_e_pen`. -/
theorem claim_C3_counterexample :
    parse_e_pen_line "13.0" = none ∧
    parse_e_pen (words (norm "13.0").data) 4 = [(parseFloatTok ['1', '3', '.', '0'], 0)] :=
  ⟨by decide, rfl⟩

/-- C3 (amended).  The team pipeline's execution/penalty matcher
(`parse_e_pen`) reads up to `max_groups` repeated groups of a float followed
by an optional negative float from its token list left to right, treats a
group with only the positive value as having zero penalty, and stops early
returning the partial group list when fewer groups are found; the individual
pipeline's matcher (`parse_e_pen_line`) performs the same scan on the line's
whitespace-split tokens but returns `None` (an error, not a partial list)
when fewer than 4 groups are found. -/
theorem claim_C3 :
    (∀ (toks : List (List Char)) (n : Nat), (parse_e_pen toks n).length ≤ n) ∧
    (∀ line : String,
        parse_e_pen_line line =
          if (parse_e_pen (words (norm line).data) 4).length = 4 then
            some (parse_e_pen (words (norm line).data) 4)
          else none) ∧
    (∀ (tok : List Char) (toks : List (List Char)) (n : Nat),
        isFloatTok tok = true →
        (∀ t2, toks.head? = some t2 → ¬(t2.head? = some '-' ∧ isFloatTok t2 = true)) →
        parse_e_pen (tok :: toks) (n + 1) = (parseFloatTok tok, 0) :: parse_e_pen toks n) ∧
    (∀ (tok t2 : List Char) (toks : List (List Char)) (n : Nat),
        isFloatTok tok = true → t2.head? = some '-' → isFloatTok t2 = true →
        parse_e_pen (tok :: t2 :: toks) (n + 1) =
          (parseFloatTok tok, parseFloatTok t2) :: parse_e_pen toks n) ∧
    (∀ (tok : List Char) (toks : List (List Char)) (n : Nat),
        isFloatTok tok = false → parse_e_pen (tok :: toks) n = []) := by
  refine ⟨fun toks n => ePenGo_length_le n toks, ?_, ?_, ?_, ?_⟩
  · intro line
    exact ePenLineGo_eq_ePenGo 4 (words (norm line).data)
  · intro tok toks n hf hno
    match toks with
    | [] => simp [parse_e_pen, ePenGo, hf, ePenGo_nil]
    | t2 :: rest =>
      have h2 := hno t2 rfl
      have hcond : (decide (t2.head? = some '-') && isFloatTok t2) = false := by
        by_cases hh : t2.head? = some '-'
        · cases hf2 : isFloatTok t2
          · simp [hh, hf2]
          · exact absurd ⟨hh, hf2⟩ h2
        · simp [hh]
      simp [parse_e_pen, ePenGo, hf, hcond]
  · intro tok t2 toks n hf hh hf2
    simp [parse_e_pen, ePenGo, hf, hh, hf2]
  · intro tok toks n hf
    cases n <;> simp [parse_e_pen, ePenGo, hf]

/-- Witness for C3: the grouping equations at concrete tokens. -/
theorem claim_C3_witness :
    parse_e_pen [['8', '.', '0']] 4 = [(parseFloatTok ['8', '.', '0'], 0)] ∧
    parse_e_pen [['8', '.', '0'], ['-', '0', '.', '5']] 4 =
      [(parseFloatTok ['8', '.', '0'], parseFloatTok ['-', '0', '.', '5'])] ∧
    parse_e_pen [['x'], ['8', '.', '0']] 4 = [] := by
  refine ⟨?_, ?_, ?_⟩
  · rw [claim_C3.2.2.1 ['8', '.', '0'] [] 3 (by decide) (by intro t2 h; cases h)]
    rfl
  · rw [claim_C3.2.2.2.1 ['8', '.', '0'] ['-', '0', '.', '5'] [] 3 (by decide) (by decide)
      (by decide)]
    rfl
  · exact claim_C3.2.2.2.2 ['x'] [['8', '.', '0']] 4 (by decide)

/-! ## C2: shape of every team record -/

/-- Every record of the team scan is produced by `buildTeamRec`. -/
theorem teamScanGo_shape (lines : List String) :
    ∀ (fuel i : Nat) (ctx : Option (Nat × String)) (p : Nat × TeamRec),
      p ∈ teamScanGo lines fuel i ctx →
      ∃ crank cnoc bib name dsPairs epen,
        p.2 = buildTeamRec crank cnoc bib name dsPairs epen := by
  intro fuel
  induction fuel with
  | zero => intro i ctx p h; simp [teamScanGo] at h
  | succ fuel ih =>
    intro i ctx p h
    match hln : lines.get? i with
    | none =>
      simp only [teamScanGo, hln] at h
      simp at h
    | some ln =>
      match hteam : teamHdrMatch ln with
      | some (trank, noc) =>
        simp only [teamScanGo, hln, hteam] at h
        exact ih (i + 1) _ p h
      | none =>
        match hath : athHdrMatch ln with
        | some (bib, name, trail) =>
          match ctx with
          | some (crank, cnoc) =>
            simp only [teamScanGo, hln, hteam, hath] at h
            rcases List.mem_cons.mp h with he | ht
            · exact ⟨crank, cnoc, bib, name, _, _, by rw [he]⟩
            · exact ih _ _ p ht
          | none =>
            simp only [teamScanGo, hln, hteam, hath] at h
            exact ih (i + 1) _ p h
        | none =>
          match ctx with
          | some (crank, cnoc) =>
            simp only [teamScanGo, hln, hteam, hath] at h
            exact ih (i + 1) _ p h
          | none =>
            simp only [teamScanGo, hln, hteam, hath] at h
            exact ih (i + 1) _ p h

/-- C2.  Every record emitted by the team pipeline is built by
`buildTeamRec`, and for `k = min(#D/S pairs, #E/Pen groups, 4)`: exactly the
first `k` of the four apparatus groups carry values (D, E, Pen, Score all
present), the remaining `4 - k` carry the unknown marker, and `Total` is the
sum of the `k` resolved scores rounded to three decimals, or unknown when
`k = 0`. -/
theorem claim_C2 :
    (∀ (lines : List String) (r : TeamRec), r ∈ parse_pdf_team_lines lines →
      ∃ crank cnoc bib name dsPairs epen,
        r = buildTeamRec crank cnoc bib name dsPairs epen) ∧
    (∀ (crank : Nat) (cnoc : String) (bib : Nat) (name : String)
        (dsPairs epen : List (Rat × Rat)),
      (buildTeamRec crank cnoc bib name dsPairs epen).apps.length = 4 ∧
      (∀ idx, idx < min (min dsPairs.length epen.length) 4 →
        ∃ dv sv ev pv, dsPairs.get? idx = some (dv, sv) ∧ epen.get? idx = some (ev, pv) ∧
          (buildTeamRec crank cnoc bib name dsPairs epen).apps.get? idx =
            some ⟨some dv, some ev, some pv, some sv, none⟩) ∧
      (∀ idx, min (min dsPairs.length epen.length) 4 ≤ idx → idx < 4 →
        (buildTeamRec crank cnoc bib name dsPairs epen).apps.get? idx = some unkApp) ∧
      (buildTeamRec crank cnoc bib name dsPairs epen).total =
        (if 0 < min (min dsPairs.length epen.length) 4 then
          some (round3
            (((buildTeamRec crank cnoc bib name dsPairs epen).apps.filterMap
              TeamApp.score).sum))
        else none)) := by
  constructor
  · intro lines r hr
    unfold parse_pdf_team_lines at hr
    rw [List.mem_map] at hr
    obtain ⟨p, hp, rfl⟩ := hr
    exact teamScanGo_shape lines _ 0 none p hp
  · intro crank cnoc bib name dsPairs epen
    refine ⟨by simp [buildTeamRec], ?_, ?_, ?_⟩
    · intro idx hidx
      have hd : idx < dsPairs.length := by omega
      have he : idx < epen.length := by omega
      have h4 : idx < 4 := by omega
      obtain ⟨⟨dv, sv⟩, hds⟩ : ∃ p, dsPairs.get? idx = some p := ⟨_, List.get?_eq_get hd⟩
      obtain ⟨⟨ev, pv⟩, hep⟩ : ∃ p, epen.get? idx = some p := ⟨_, List.get?_eq_get he⟩
      refine ⟨dv, sv, ev, pv, hds, hep, ?_⟩
      have hds' : dsPairs[idx]? = some (dv, sv) := by rw [← List.get?_eq_getElem?]; exact hds
      have hep' : epen[idx]? = some (ev, pv) := by rw [← List.get?_eq_getElem?]; exact hep
      simp [buildTeamRec, List.getElem?_map, List.getElem?_range, h4, hds', hep']
    · intro idx hk h4
      have : dsPairs.length ≤ idx ∨ epen.length ≤ idx := by omega
      cases this with
      | inl hd =>
        have hds : dsPairs[idx]? = none := by
          rw [← List.get?_eq_getElem?]; exact List.get?_eq_none.mpr hd
        simp [buildTeamRec, List.getElem?_map, List.getElem?_range, h4, hds, unkApp]
      | inr he =>
        have hep : epen[idx]? = none := by
          rw [← List.get?_eq_getElem?]; exact List.get?_eq_none.mpr he
        match hds : dsPairs[idx]? with
        | none => simp [buildTeamRec, List.getElem?_map, List.getElem?_range, h4, hds, unkApp]
        | some (dv, sv) =>
          simp [buildTeamRec, List.getElem?_map, List.getElem?_range, h4, hds, hep, unkApp]
    · have happs : ((buildTeamRec crank cnoc bib name dsPairs epen).apps.filterMap
          TeamApp.score) = (List.range 4).filterMap (fun idx =>
            if idx < min (min dsPairs.length epen.length) 4 then
              (dsPairs.get? idx).map Prod.snd
            else none) := by
        simp only [buildTeamRec]
        rw [List.filterMap_map]
        apply List.filterMap_congr
        intro idx hidx
        have h4 : idx < 4 := by simpa [List.mem_range] using hidx
        by_cases hlt : idx < min (min dsPairs.length epen.length) 4
        · have hd : idx < dsPairs.length := by omega
          have he : idx < epen.length := by omega
          obtain ⟨⟨dv, sv⟩, hds⟩ : ∃ p, dsPairs.get? idx = some p := ⟨_, List.get?_eq_get hd⟩
          obtain ⟨⟨ev, pv⟩, hep⟩ : ∃ p, epen.get? idx = some p := ⟨_, List.get?_eq_get he⟩
          have hds' : dsPairs[idx]? = some (dv, sv) := by
            rw [← List.get?_eq_getElem?]; exact hds
          have hep' : epen[idx]? = some (ev, pv) := by
            rw [← List.get?_eq_getElem?]; exact hep
          simp [hlt, hds, hep, hds', hep', Function.comp]
          omega
        · have : dsPairs.length ≤ idx ∨ epen.length ≤ idx := by omega
          cases this with
          | inl hd =>
            have hds : dsPairs.get? idx = none := List.get?_eq_none.mpr hd
            have hds' : dsPairs[idx]? = none := by
              rw [← List.get?_eq_getElem?]; exact hds
            simp [hlt, hds, hds', unkApp, Function.comp]
          | inr he =>
            have hep : epen.get? idx = none := List.get?_eq_none.mpr he
            have hep' : epen[idx]? = none := by
              rw [← List.get?_eq_getElem?]; exact hep
            match hds : dsPairs.get? idx with
            | none =>
              have hds' : dsPairs[idx]? = none := by
                rw [← List.get?_eq_getElem?]; exact hds
              simp [hlt, hds, hds', unkApp, Function.comp]
            | some (dv, sv) =>
              have hds' : dsPairs[idx]? = some (dv, sv) := by
                rw [← List.get?_eq_getElem?]; exact hds
              simp [hlt, hds, hds', hep, hep', unkApp, Function.comp]
              rw [if_neg (by omega)]
      rw [happs]
      rfl

/-- Witness for C2 at `dsPairs = [(5,13)]`, `epen = [(8,0),(7,-1)]`
(so `k = 1`): apparatus 0 resolved, apparatus 2 unknown, and the total is the
rounded sum of the resolved scores. -/
theorem claim_C2_witness :
    (buildTeamRec 1 "USA" 510 "S" [((5 : Rat), (13 : Rat))]
        [((8 : Rat), (0 : Rat)), ((7 : Rat), (-1 : Rat))]).apps.get? 0 =
      some ⟨some 5, some 8, some 0, some 13, none⟩ ∧
    (buildTeamRec 1 "USA" 510 "S" [((5 : Rat), (13 : Rat))]
        [((8 : Rat), (0 : Rat)), ((7 : Rat), (-1 : Rat))]).apps.get? 2 = some unkApp ∧
    (buildTeamRec 1 "USA" 510 "S" [((5 : Rat), (13 : Rat))]
        [((8 : Rat), (0 : Rat)), ((7 : Rat), (-1 : Rat))]).total =
      some (round3 (((buildTeamRec 1 "USA" 510 "S" [((5 : Rat), (13 : Rat))]
        [((8 : Rat), (0 : Rat)), ((7 : Rat), (-1 : Rat))]).apps.filterMap
          TeamApp.score).sum)) := by
  have h := claim_C2.2 1 "USA" 510 "S" [((5 : Rat), (13 : Rat))]
    [((8 : Rat), (0 : Rat)), ((7 : Rat), (-1 : Rat))]
  refine ⟨?_, ?_, ?_⟩
  · obtain ⟨dv, sv, ev, pv, hds, hep, happ⟩ := h.2.1 0 (by decide)
    simp only [List.get?_cons_zero, Option.some.injEq, Prod.mk.injEq] at hds hep
    rw [happ, hds.1, hds.2, hep.1, hep.2]
  · exact h.2.2.1 2 (by decide) (by decide)
  · rw [h.2.2.2]
    norm_num

/-! ## C9: progress and termination of the team scan -/

/-- The forward scan never moves backwards. -/
theorem scanE_fst_ge (lines : List String) :
    ∀ (fuel j : Nat), j ≤ (scanE lines fuel j).1 := by
  intro fuel
  induction fuel with
  | zero => intro j; simp [scanE]
  | succ fuel ih =>
    intro j
    match hln : lines[j]? with
    | none => simp [scanE, hln]
    | some nxt =>
      by_cases hh : isHeaderLine nxt
      · simp [scanE, hln, hh]
      · have := ih (j + 1)
        simp [scanE, hln, hh]
        omega

/-- Initiating indices only grow along the scan. -/
theorem teamScanGo_idx_ge (lines : List String) :
    ∀ (fuel i : Nat) (ctx : Option (Nat × String)) (p : Nat × TeamRec),
      p ∈ teamScanGo lines fuel i ctx → i ≤ p.1 := by
  intro fuel
  induction fuel with
  | zero => intro i ctx p h; simp [teamScanGo] at h
  | succ fuel ih =>
    intro i ctx p h
    match hln : lines.get? i with
    | none =>
      simp only [teamScanGo, hln] at h
      simp at h
    | some ln =>
      match hteam : teamHdrMatch ln with
      | some (trank, noc) =>
        simp only [teamScanGo, hln, hteam] at h
        have := ih (i + 1) _ p h
        omega
      | none =>
        match hath : athHdrMatch ln with
        | some (bib, name, trail) =>
          match ctx with
          | some (crank, cnoc) =>
            simp only [teamScanGo, hln, hteam, hath] at h
            rcases List.mem_cons.mp h with he | ht
            · rw [he]
            · have h1 := ih _ _ p ht
              have h2 := scanE_fst_ge lines lines.length (i + 1)
              omega
          | none =>
            simp only [teamScanGo, hln, hteam, hath] at h
            have := ih (i + 1) _ p h
            omega
        | none =>
          match ctx with
          | some (crank, cnoc) =>
            simp only [teamScanGo, hln, hteam, hath] at h
            have := ih (i + 1) _ p h
            omega
          | none =>
            simp only [teamScanGo, hln, hteam, hath] at h
            have := ih (i + 1) _ p h
            omega

/-- Fuel sufficiency: any fuel of at least `lines.length - i` scan steps
computes the same record list (the loop terminates). -/
theorem teamScanGo_fuel (lines : List String) :
    ∀ (f1 f2 i : Nat) (ctx : Option (Nat × String)),
      lines.length - i ≤ f1 → lines.length - i ≤ f2 →
      teamScanGo lines f1 i ctx = teamScanGo lines f2 i ctx := by
  intro f1
  induction f1 with
  | zero =>
    intro f2 i ctx h1 h2
    have hge : lines.length ≤ i := by omega
    have hln : lines.get? i = none := List.get?_eq_none.mpr hge
    cases f2 with
    | zero => rfl
    | succ f2 => simp only [teamScanGo, hln]
  | succ f1 ih =>
    intro f2 i ctx h1 h2
    cases f2 with
    | zero =>
      have hge : lines.length ≤ i := by omega
      have hln : lines.get? i = none := List.get?_eq_none.mpr hge
      simp only [teamScanGo, hln]
    | succ f2 =>
      match hln : lines.get? i with
      | none => simp only [teamScanGo, hln]
      | some ln =>
        have hi : i < lines.length := by
          by_contra hc
          rw [List.get?_eq_none.mpr (by omega)] at hln
          cases hln
        match hteam : teamHdrMatch ln with
        | some (trank, noc) =>
          simp only [teamScanGo, hln, hteam]
          exact ih f2 (i + 1) _ (by omega) (by omega)
        | none =>
          match hath : athHdrMatch ln with
          | some (bib, name, trail) =>
            match ctx with
            | some (crank, cnoc) =>
              simp only [teamScanGo, hln, hteam, hath]
              have hs := scanE_fst_ge lines lines.length (i + 1)
              rw [ih f2 ((scanE lines lines.length (i + 1)).1) _ (by omega) (by omega)]
            | none =>
              simp only [teamScanGo, hln, hteam, hath]
              exact ih f2 (i + 1) _ (by omega) (by omega)
          | none =>
            match ctx with
            | some (crank, cnoc) =>
              simp only [teamScanGo, hln, hteam, hath]
              exact ih f2 (i + 1) _ (by omega) (by omega)
            | none =>
              simp only [teamScanGo, hln, hteam, hath]
              exact ih f2 (i + 1) _ (by omega) (by omega)

/-- Each scan step emits at most one record per consumed line. -/
theorem teamScanGo_length_le (lines : List String) :
    ∀ (fuel i : Nat) (ctx : Option (Nat × String)),
      (teamScanGo lines fuel i ctx).length ≤ lines.length - i := by
  intro fuel
  induction fuel with
  | zero => intro i ctx; simp [teamScanGo]
  | succ fuel ih =>
    intro i ctx
    match hln : lines.get? i with
    | none =>
      simp only [teamScanGo, hln]
      simp
    | some ln =>
      have hi : i < lines.length := by
        by_contra hc
        rw [List.get?_eq_none.mpr (by omega)] at hln
        cases hln
      match hteam : teamHdrMatch ln with
      | some (trank, noc) =>
        simp only [teamScanGo, hln, hteam]
        have := ih (i + 1) (some (trank, noc))
        omega
      | none =>
        match hath : athHdrMatch ln with
        | some (bib, name, trail) =>
          match ctx with
          | some (crank, cnoc) =>
            simp only [teamScanGo, hln, hteam, hath, List.length_cons]
            have h1 := ih ((scanE lines lines.length (i + 1)).1) (some (crank, cnoc))
            have h2 := scanE_fst_ge lines lines.length (i + 1)
            omega
          | none =>
            simp only [teamScanGo, hln, hteam, hath]
            have := ih (i + 1) none
            omega
        | none =>
          match ctx with
          | some (crank, cnoc) =>
            simp only [teamScanGo, hln, hteam, hath]
            have := ih (i + 1) (some (crank, cnoc))
            omega
          | none =>
            simp only [teamScanGo, hln, hteam, hath]
            have := ih (i + 1) none
            omega

/-- Initiating indices are strictly increasing along the scan. -/
theorem teamScanGo_pairwise (lines : List String) :
    ∀ (fuel i : Nat) (ctx : Option (Nat × String)),
      ((teamScanGo lines fuel i ctx).map Prod.fst).Pairwise (· < ·) := by
  intro fuel
  induction fuel with
  | zero => intro i ctx; simp [teamScanGo]
  | succ fuel ih =>
    intro i ctx
    match hln : lines.get? i with
    | none =>
      simp only [teamScanGo, hln]
      simp
    | some ln =>
      match hteam : teamHdrMatch ln with
      | some (trank, noc) =>
        simp only [teamScanGo, hln, hteam]
        exact ih (i + 1) _
      | none =>
        match hath : athHdrMatch ln with
        | some (bib, name, trail) =>
          match ctx with
          | some (crank, cnoc) =>
            simp only [teamScanGo, hln, hteam, hath, List.map_cons]
            rw [List.pairwise_cons]
            refine ⟨?_, ih _ _⟩
            intro a ha
            rw [List.mem_map] at ha
            obtain ⟨p, hp, rfl⟩ := ha
            have h1 := teamScanGo_idx_ge lines fuel _ _ p hp
            have h2 := scanE_fst_ge lines lines.length (i + 1)
            omega
          | none =>
            simp only [teamScanGo, hln, hteam, hath]
            exact ih (i + 1) _
        | none =>
          match ctx with
          | some (crank, cnoc) =>
            simp only [teamScanGo, hln, hteam, hath]
            exact ih (i + 1) _
          | none =>
            simp only [teamScanGo, hln, hteam, hath]
            exact ih (i + 1) _

/-- C9.  The team scan makes strict progress: the forward scan's stopping
index is at least one past the athlete line, the loop's result is the same
for every sufficient fuel (so the scan of a finite line list terminates),
the initiating line indices of the emitted records are strictly increasing
(no line initiates more than one record), and at most one record is emitted
per line. -/
theorem claim_C9 :
    (∀ (lines : List String) (fuel i : Nat), i < (scanE lines fuel (i + 1)).1) ∧
    (∀ (lines : List String) (f1 f2 i : Nat) (ctx : Option (Nat × String)),
      lines.length - i ≤ f1 → lines.length - i ≤ f2 →
      teamScanGo lines f1 i ctx = teamScanGo lines f2 i ctx) ∧
    (∀ lines : List String,
      ((teamScanGo lines lines.length 0 none).map Prod.fst).Pairwise (· < ·)) ∧
    (∀ lines : List String, (parse_pdf_team_lines lines).length ≤ lines.length) := by
  refine ⟨?_, teamScanGo_fuel, fun lines => teamScanGo_pairwise lines _ 0 none, ?_⟩
  · intro lines fuel i
    have := scanE_fst_ge lines fuel (i + 1)
    omega
  · intro lines
    have := teamScanGo_length_le lines lines.length 0 none
    unfold parse_pdf_team_lines
    rw [List.length_map]
    omega

/-- Witness for C9: fuel sufficiency at the sample team page. -/
theorem claim_C9_witness :
    teamScanGo demoTeamLines 7 0 none = teamScanGo demoTeamLines 5 0 none :=
  claim_C9.2.1 demoTeamLines 7 5 0 none (by decide) (by decide)

/-! ## C6: the forward scan of the team pipeline -/

theorem get?_lt_length {α : Type} {l : List α} {n : Nat} {a : α}
    (h : l.get? n = some a) : n < l.length :=
  (List.get?_eq_some.mp h).1

/-- The forward scan never runs past the end of the line list. -/
theorem scanE_le_length (lines : List String) :
    ∀ (fuel j : Nat), j ≤ lines.length → (scanE lines fuel j).1 ≤ lines.length := by
  intro fuel
  induction fuel with
  | zero => intro j hj; simpa [scanE] using hj
  | succ fuel ih =>
    intro j hj
    match hln : lines[j]? with
    | none => simpa [scanE, hln] using hj
    | some nxt =>
      have hjl : j < lines.length := by
        by_contra hc
        rw [List.getElem?_eq_none (by omega)] at hln
        cases hln
      by_cases hh : isHeaderLine nxt
      · simpa [scanE, hln, hh] using hj
      · simpa [scanE, hln, hh] using ih (j + 1) (by omega)

/-- No line strictly between the scan start and its stop index is a header
line. -/
theorem scanE_no_header (lines : List String) :
    ∀ (fuel j m : Nat) (lm : String), j ≤ m → m < (scanE lines fuel j).1 →
      lines.get? m = some lm → isHeaderLine lm = false := by
  intro fuel
  induction fuel with
  | zero =>
    intro j m lm hjm hm _
    simp [scanE] at hm
    omega
  | succ fuel ih =>
    intro j m lm hjm hm hlm
    match hln : lines[j]? with
    | none =>
      rw [scanE] at hm
      simp only [List.get?_eq_getElem?] at hm ⊢
      rw [hln] at hm
      simp at hm
      omega
    | some nxt =>
      by_cases hh : isHeaderLine nxt
      · rw [scanE] at hm
        simp only [List.get?_eq_getElem?] at hm
        rw [hln] at hm
        simp [hh] at hm
        omega
      · rcases Nat.eq_or_lt_of_le hjm with heq | hlt
        · subst heq
          have : lm = nxt := by
            rw [List.get?_eq_getElem?, hln] at hlm
            exact (Option.some.inj hlm).symm
          rw [this]
          simpa using hh
        · apply ih (j + 1) m lm hlt _ hlm
          rw [scanE] at hm
          simp only [List.get?_eq_getElem?] at hm
          rw [hln] at hm
          simp [hh] at hm
          exact hm

/-- When the scan stops before the end, it stops exactly on a header line
(which is not consumed). -/
theorem scanE_stop_header (lines : List String) :
    ∀ (fuel j : Nat), lines.length - j ≤ fuel →
      (scanE lines fuel j).1 < lines.length →
      ∃ lm, lines.get? (scanE lines fuel j).1 = some lm ∧ isHeaderLine lm = true := by
  intro fuel
  induction fuel with
  | zero =>
    intro j hfuel hstop
    simp [scanE] at hstop ⊢
    omega
  | succ fuel ih =>
    intro j hfuel hstop
    match hln : lines[j]? with
    | none =>
      rw [scanE] at hstop ⊢
      simp only [List.get?_eq_getElem?] at hstop ⊢
      rw [hln] at hstop ⊢
      simp at hstop ⊢
      rw [List.getElem?_eq_none_iff] at hln
      omega
    | some nxt =>
      by_cases hh : isHeaderLine nxt
      · rw [scanE] at hstop ⊢
        simp only [List.get?_eq_getElem?] at hstop ⊢
        rw [hln] at hstop ⊢
        simp only [hh, if_true]
        exact ⟨nxt, hln, hh⟩
      · have hjl : j < lines.length := by
          by_contra hc
          rw [List.getElem?_eq_none (by omega)] at hln
          cases hln
        have hrec := ih (j + 1) (by omega)
        rw [scanE] at hstop ⊢
        simp only [List.get?_eq_getElem?] at hstop ⊢
        rw [hln] at hstop ⊢
        simp only [hh, Bool.false_eq_true, if_false] at hstop ⊢
        simpa only [List.get?_eq_getElem?] using hrec hstop

/-- The token pool collected by the scan is exactly the numeric tokens of the
lines strictly between the start and the stop index (the terminating header
line contributes nothing). -/
theorem scanE_toks (lines : List String) :
    ∀ (fuel j : Nat), lines.length - j ≤ fuel →
      (scanE lines fuel j).2 =
        ((lines.drop j).take ((scanE lines fuel j).1 - j)).flatMap
          (fun l => floats_from l) := by
  intro fuel
  induction fuel with
  | zero =>
    intro j hfuel
    simp [scanE]
  | succ fuel ih =>
    intro j hfuel
    match hln : lines[j]? with
    | none =>
      rw [scanE]
      simp only [List.get?_eq_getElem?]
      rw [hln]
      simp
    | some nxt =>
      have hjl : j < lines.length := by
        by_contra hc
        rw [List.getElem?_eq_none (by omega)] at hln
        cases hln
      have hdrop : lines.drop j = nxt :: lines.drop (j + 1) := by
        rw [List.drop_eq_getElem_cons hjl]
        congr 1
        have := List.getElem?_eq_some.mp hln
        exact this.2
      by_cases hh : isHeaderLine nxt
      · rw [scanE]
        simp only [List.get?_eq_getElem?]
        rw [hln]
        simp [hh]
      · have hge := scanE_fst_ge lines fuel (j + 1)
        have hrec := ih (j + 1) (by omega)
        rw [scanE]
        simp only [List.get?_eq_getElem?]
        rw [hln]
        simp only [hh, Bool.false_eq_true, if_false]
        rw [hdrop]
        have hsub : (scanE lines fuel (j + 1)).1 - j = ((scanE lines fuel (j + 1)).1 - (j + 1)) + 1 := by
          omega
        rw [hsub, List.take_succ_cons, List.flatMap_cons, hrec]

/-- C6.  In the team pipeline's scan loop: an athlete-header match is acted
on only when a team context exists (otherwise the scan just advances one
line, emitting nothing), and on an athlete-header match with context the
E/Pen collection stops at the first following team- or athlete-header line:
the stop index is past the athlete line, every line strictly between
contributes its numeric tokens and is not a header, the stopping line (when
inside the list) is a header, and it is not consumed — the loop resumes at
the stop index. -/
theorem claim_C6 :
    (∀ (lines : List String) (fuel i : Nat) (ln : String),
        lines.get? i = some ln → teamHdrMatch ln = none → athHdrMatch ln ≠ none →
        teamScanGo lines (fuel + 1) i none = teamScanGo lines fuel (i + 1) none) ∧
    (∀ (lines : List String) (fuel i : Nat) (ln : String) (bib : Nat)
        (name trail : String) (crank : Nat) (cnoc : String),
        lines.get? i = some ln → teamHdrMatch ln = none →
        athHdrMatch ln = some (bib, name, trail) →
        teamScanGo lines (fuel + 1) i (some (crank, cnoc)) =
          (i, buildTeamRec crank cnoc bib name (parse_ds_pairs (floats_from trail))
               (parse_e_pen (scanE lines lines.length (i + 1)).2 4)) ::
            teamScanGo lines fuel (scanE lines lines.length (i + 1)).1
              (some (crank, cnoc)) ∧
        i < (scanE lines lines.length (i + 1)).1 ∧
        (scanE lines lines.length (i + 1)).1 ≤ lines.length ∧
        (∀ (m : Nat) (lm : String), i < m → m < (scanE lines lines.length (i + 1)).1 →
          lines.get? m = some lm → isHeaderLine lm = false) ∧
        ((scanE lines lines.length (i + 1)).1 < lines.length →
          ∃ lm, lines.get? (scanE lines lines.length (i + 1)).1 = some lm ∧
            isHeaderLine lm = true) ∧
        (scanE lines lines.length (i + 1)).2 =
          ((lines.drop (i + 1)).take ((scanE lines lines.length (i + 1)).1 - (i + 1))).flatMap
            (fun l => floats_from l)) := by
  constructor
  · intro lines fuel i ln hln hteam hath
    obtain ⟨⟨bib, name, trail⟩, hsome⟩ : ∃ t, athHdrMatch ln = some t :=
      Option.ne_none_iff_exists'.mp hath
    simp only [teamScanGo, hln, hteam, hsome]
  · intro lines fuel i ln bib name trail crank cnoc hln hteam hath
    have hil : i < lines.length := get?_lt_length hln
    refine ⟨?_, ?_, ?_, ?_, ?_, ?_⟩
    · simp only [teamScanGo, hln, hteam, hath]
    · have := scanE_fst_ge lines lines.length (i + 1)
      omega
    · exact scanE_le_length lines lines.length (i + 1) (by omega)
    · intro m lm him hm hlm
      exact scanE_no_header lines lines.length (i + 1) m lm (by omega) hm hlm
    · exact scanE_stop_header lines lines.length (i + 1) (by omega)
    · exact scanE_toks lines lines.length (i + 1) (by omega)

/-- Witness for C6 at the sample team page (athlete line at index 1, scan
stops at index 3, the athlete header at that index). -/
theorem claim_C6_witness :
    teamScanGo demoTeamLines 4 1 (some (1, "USA")) =
      (1, buildTeamRec 1 "USA" 510 "SMITH Jane"
           (parse_ds_pairs (floats_from "5.0 13.0 5.5 14.0"))
           (parse_e_pen (scanE demoTeamLines demoTeamLines.length 2).2 4)) ::
        teamScanGo demoTeamLines 3 (scanE demoTeamLines demoTeamLines.length 2).1
          (some (1, "USA")) ∧
    1 < (scanE demoTeamLines demoTeamLines.length 2).1 ∧
    (scanE demoTeamLines demoTeamLines.length 2).1 ≤ demoTeamLines.length ∧
    teamScanGo demoTeamLines 4 3 none = teamScanGo demoTeamLines 3 4 none := by
  have h2 := claim_C6.2 demoTeamLines 3 1 "510 SMITH Jane D E 5.0 13.0 5.5 14.0"
    510 "SMITH Jane" "5.0 13.0 5.5 14.0" 1 "USA" (by decide) (by decide) (by decide)
  have h1 := claim_C6.1 demoTeamLines 3 3 "511 DOE Ann D E 5.0 13.0"
    (by decide) (by decide) (by decide)
  exact ⟨h2.1, h2.2.1, h2.2.2.1, h1⟩

/-! ## C1: all-or-nothing emission in the individual pipeline -/

/-- C1.  In the individual all-around pipeline, a record is emitted for line
`i` if and only if that line matches the identity pattern, the neighbours
`i-1` and `i+1` exist, line `i-1` parses to at least 4
difficulty/score/rank triplets, and line `i+1` parses (to its 4
execution/penalty groups); and every emitted record carries all four
apparatus groups — never a partial record. -/
theorem exists_four_cons {α : Type} {l : List α} (h : 4 ≤ l.length) :
    ∃ a b c d t, l = a :: b :: c :: d :: t := by
  match l with
  | [] => simp at h
  | [_] => simp at h
  | [_, _] => simp at h
  | [_, _, _] => simp at h
  | a :: b :: c :: d :: t => exact ⟨a, b, c, d, t, rfl⟩

/-- Everything a successful `candidate` implies: all the stitching conditions
hold and the record carries all four apparatus groups. -/
theorem candidate_some_spec {lines : List String} {i : Nat} {r : IndRec}
    (hr : candidate lines i = some r) :
    (∃ ln, lines.get? i = some ln ∧ (identityMatch ln).isSome ∧
      1 ≤ i ∧ i + 1 < lines.length ∧
      (∃ dl, lines.get? (i - 1) = some dl ∧ 4 ≤ (parse_dscore_line dl).1.length) ∧
      (∃ el, lines.get? (i + 1) = some el ∧ (parse_e_pen_line el).isSome)) ∧
    r.apps.length = 4 := by
  match hline : lines.get? i with
  | none =>
    simp only [candidate, hline] at hr
    exact absurd hr (by simp)
  | some line =>
    match hid : identityMatch line with
    | none =>
      simp only [candidate, hline, hid] at hr
      exact absurd hr (by simp)
    | some (rank, bib, name, noc) =>
      simp only [candidate, hline, hid] at hr
      by_cases hbound : i = 0 ∨ lines.length ≤ i + 1
      · rw [if_pos hbound] at hr; cases hr
      · rw [if_neg hbound] at hr
        have hi1 : 1 ≤ i := by omega
        have hi2 : i + 1 < lines.length := by omega
        obtain ⟨dl, hdl⟩ : ∃ dl, lines.get? (i - 1) = some dl :=
          ⟨_, List.get?_eq_get (by omega)⟩
        obtain ⟨el, hel⟩ : ∃ el, lines.get? (i + 1) = some el :=
          ⟨_, List.get?_eq_get (by omega)⟩
        simp only [hdl, hel] at hr
        match hep : parse_e_pen_line el with
        | none =>
          simp only [hep] at hr
          exact absurd hr (by simp)
        | some epen =>
          simp only [hep] at hr
          by_cases hlen : (parse_dscore_line dl).1.length < 4 ∨ epen.length < 4
          · rw [if_pos hlen] at hr; cases hr
          · rw [if_neg hlen] at hr
            have h4d : 4 ≤ (parse_dscore_line dl).1.length := by omega
            have h4e : 4 ≤ epen.length := by omega
            obtain ⟨d0, d1, d2, d3, dt, hds⟩ := exists_four_cons h4d
            obtain ⟨e0, e1, e2, e3, et, heps⟩ := exists_four_cons h4e
            simp only [hds, heps] at hr
            refine ⟨⟨line, rfl, by simp [hid], hi1, hi2,
              ⟨dl, hdl, h4d⟩, ⟨el, hel, by simp [hep]⟩⟩, ?_⟩
            cases hr
            rfl

/-- C1.  In the individual all-around pipeline, a record is emitted for line
`i` if and only if that line matches the identity pattern, the neighbours
`i-1` and `i+1` exist, line `i-1` parses to at least 4
difficulty/score/rank triplets, and line `i+1` parses (to its 4
execution/penalty groups); and every emitted record carries all four
apparatus groups — never a partial record. -/
theorem claim_C1 (lines : List String) (i : Nat) :
    (parse_pdf_lines lines = (List.range lines.length).filterMap (candidate lines)) ∧
    ((candidate lines i).isSome ↔
      ∃ ln, lines.get? i = some ln ∧ (identityMatch ln).isSome ∧
        1 ≤ i ∧ i + 1 < lines.length ∧
        (∃ dl, lines.get? (i - 1) = some dl ∧ 4 ≤ (parse_dscore_line dl).1.length) ∧
        (∃ el, lines.get? (i + 1) = some el ∧ (parse_e_pen_line el).isSome)) ∧
    (∀ r, candidate lines i = some r → r.apps.length = 4) := by
  refine ⟨rfl, ?_, fun r hr => (candidate_some_spec hr).2⟩
  constructor
  · intro hs
    obtain ⟨r, hr⟩ := Option.isSome_iff_exists.mp hs
    exact (candidate_some_spec hr).1
  · rintro ⟨ln, hline, hid, hi1, hi2, ⟨dl, hdl, hdl4⟩, ⟨el, hel, hepS⟩⟩
    obtain ⟨⟨rank, bib, name, noc⟩, hidq⟩ := Option.isSome_iff_exists.mp hid
    obtain ⟨epen, hep⟩ := Option.isSome_iff_exists.mp hepS
    have hep4 : epen.length = 4 := ePenLineGo_length hep
    have hbound : ¬(i = 0 ∨ lines.length ≤ i + 1) := by omega
    have hguard : ¬((parse_dscore_line dl).1.length < 4 ∨ epen.length < 4) := by omega
    obtain ⟨d0, d1, d2, d3, dt, hds⟩ := exists_four_cons hdl4
    obtain ⟨e0, e1, e2, e3, et, heps⟩ := exists_four_cons (show 4 ≤ epen.length by omega)
    simp only [candidate, hline, hidq]
    rw [if_neg hbound]
    simp only [hdl, hel, hep]
    rw [if_neg hguard]
    simp only [hds, heps]
    simp

/-- Witness for C1 at the minimal well-formed block: the record emitted for
line 1 carries all four apparatus groups. -/
theorem claim_C1_witness :
    (candidate demoIndLines 1).map (fun r => r.apps.length) = some 4 := by
  have hall := (claim_C1 demoIndLines 1).2.2
  have hs : (candidate demoIndLines 1).isSome := by decide
  cases hc : candidate demoIndLines 1 with
  | none => rw [hc] at hs; simp at hs
  | some r => simp [hall r hc]

/-! ## C7: the schema normalizer's column union -/

theorem firstSeen_mem (x : String) :
    ∀ l : List String, x ∈ firstSeen l ↔ x ∈ l := by
  intro l
  induction l using firstSeen.induct with
  | case1 => simp [firstSeen]
  | case2 c cs ih =>
    rw [firstSeen]
    by_cases hx : x = c
    · subst hx; simp
    · simp only [List.mem_cons, hx, false_or]
      rw [ih]
      simp [hx, List.mem_filter, bne_iff_ne]

theorem firstSeen_nodup : ∀ l : List String, (firstSeen l).Nodup := by
  intro l
  induction l using firstSeen.induct with
  | case1 => simp [firstSeen]
  | case2 c cs ih =>
    rw [firstSeen, List.nodup_cons]
    refine ⟨?_, ih⟩
    intro hc
    rw [firstSeen_mem, List.mem_filter] at hc
    simpa using hc.2

theorem firstSeen_append :
    ∀ xs ys : List String, firstSeen (xs ++ ys) =
      firstSeen xs ++ firstSeen (ys.filter (fun y => decide (y ∉ xs))) := by
  intro xs
  induction xs using firstSeen.induct with
  | case1 =>
    intro ys
    simp [firstSeen]
  | case2 c cs ih =>
    intro ys
    rw [List.cons_append, firstSeen, firstSeen, List.filter_append, ih]
    congr 2
    rw [List.filter_filter]
    apply congrArg
    apply List.filter_congr
    intro y _
    by_cases hyc : y = c
    · subst hyc; simp
    · rw [show ((y != c) : Bool) = true by simp [bne_iff_ne, hyc], Bool.and_true,
        decide_eq_decide]
      constructor
      · intro h hmem2
        rcases List.mem_cons.mp hmem2 with h1 | h2
        · exact hyc h1
        · exact h (List.mem_filter.mpr ⟨h2, by simp [bne_iff_ne, hyc]⟩)
      · intro h hmem2
        exact h (List.mem_cons_of_mem c (List.mem_filter.mp hmem2).1)

theorem addCols_eq_firstSeen :
    ∀ (cs acc : List String), addCols acc cs =
      acc ++ firstSeen (cs.filter (fun x => decide (x ∉ acc))) := by
  intro cs
  induction cs with
  | nil => intro acc; simp [addCols, firstSeen]
  | cons c cs ih =>
    intro acc
    by_cases hc : c ∈ acc
    · rw [addCols, if_pos hc, ih]
      congr 2
      rw [List.filter_cons]
      simp [hc]
    · rw [addCols, if_neg hc, ih]
      rw [List.filter_cons]
      simp only [hc, not_false_eq_true, decide_True, if_pos]
      rw [firstSeen, List.filter_filter]
      rw [List.append_assoc]
      congr 1
      rw [List.singleton_append]
      congr 1
      apply congrArg
      apply List.filter_congr
      intro y _
      by_cases hyc : y = c
      · subst hyc; simp
      · simp [bne_iff_ne, hyc]

theorem masterCols_foldl :
    ∀ (blocks : List Block) (acc : List String),
      blocks.foldl (fun a b => addCols a b.cols) acc =
        acc ++ firstSeen (((blocks.map Block.cols).flatten).filter
          (fun x => decide (x ∉ acc))) := by
  intro blocks
  induction blocks with
  | nil => intro acc; simp [firstSeen]
  | cons b bs ih =>
    intro acc
    rw [List.foldl_cons, ih, addCols_eq_firstSeen]
    rw [List.map_cons, List.flatten_cons, List.filter_append, firstSeen_append]
    rw [List.append_assoc]
    congr 2
    rw [List.filter_filter]
    apply congrArg
    apply List.filter_congr
    intro y _
    rw [← Bool.decide_and, decide_eq_decide]
    simp only [List.mem_append, not_or, firstSeen_mem, List.mem_filter, decide_eq_true_eq,
      not_and]
    tauto

theorem masterCols_eq_firstSeen (blocks : List Block) :
    masterCols blocks = firstSeen ((blocks.map Block.cols).flatten) := by
  unfold masterCols
  rw [masterCols_foldl]
  rw [List.nil_append]
  apply congrArg
  rw [List.filter_eq_self]
  intro a _
  simp

theorem colIndex_eq_none {bcols : List String} {c : String} (h : c ∉ bcols) :
    colIndex bcols c = none := by
  induction bcols with
  | nil => rfl
  | cons b bs ih =>
    rw [colIndex, if_neg (by intro he; exact h (he ▸ List.mem_cons_self b bs)),
      ih (fun hm => h (List.mem_cons_of_mem b hm))]
    rfl

/-- C7.  The schema normalizer's output column set is the union (not the
intersection) of the contributing blocks' column sets, without duplicates,
in first-seen order; and reindexing a block's row to the master columns
fills every column the block lacks with the unknown marker. -/
theorem claim_C7 :
    (∀ (blocks : List Block) (c : String),
        c ∈ masterCols blocks ↔ ∃ b ∈ blocks, c ∈ b.cols) ∧
    (∀ blocks : List Block, (masterCols blocks).Nodup) ∧
    (∀ blocks : List Block,
        masterCols blocks = firstSeen ((blocks.map Block.cols).flatten)) ∧
    (∀ (bcols : List String) (row : List (Option String)) (mcols : List String)
        (j : Nat) (c : String),
        mcols.get? j = some c → c ∉ bcols →
        (reindexRow bcols row mcols).get? j = some none) := by
  refine ⟨?_, ?_, masterCols_eq_firstSeen, ?_⟩
  · intro blocks c
    rw [masterCols_eq_firstSeen, firstSeen_mem, List.mem_flatten]
    constructor
    · rintro ⟨l, hl, hc⟩
      rw [List.mem_map] at hl
      obtain ⟨b, hb, rfl⟩ := hl
      exact ⟨b, hb, hc⟩
    · rintro ⟨b, hb, hc⟩
      exact ⟨b.cols, List.mem_map_of_mem Block.cols hb, hc⟩
  · intro blocks
    rw [masterCols_eq_firstSeen]
    exact firstSeen_nodup _
  · intro bcols row mcols j c hj hc
    unfold reindexRow
    rw [List.get?_eq_getElem?] at hj ⊢
    rw [List.getElem?_map, hj]
    simp [colIndex_eq_none hc]

/-- Witness for C7: reindexing the second sample block (columns B, C) to the
master columns fills column A (position 0) with the unknown marker. -/
theorem claim_C7_witness :
    (reindexRow ["B", "C"] [some "3", some "4"]
      (masterCols [⟨["A", "B"], [[some "1", some "2"]]⟩,
                   ⟨["B", "C"], [[some "3", some "4"]]⟩])).get? 0 = some none :=
  claim_C7.2.2.2 ["B", "C"] [some "3", some "4"]
    (masterCols [⟨["A", "B"], [[some "1", some "2"]]⟩,
                 ⟨["B", "C"], [[some "3", some "4"]]⟩]) 0 "A"
    (by decide) (by decide)

/-! ## C5: the line normalizer -/

theorem wordsAux_nonspace_append (w : List Char) :
    ∀ (acc rest : List Char), (∀ c ∈ w, isSpaceChar c = false) →
      wordsAux acc (w ++ rest) = wordsAux (w.reverse ++ acc) rest := by
  induction w with
  | nil => intro acc rest _; simp
  | cons c w ih =>
    intro acc rest hns
    have hc : isSpaceChar c = false := hns c (List.mem_cons_self c w)
    rw [List.cons_append, wordsAux, if_neg (by simp [hc])]
    rw [ih (c :: acc) rest (fun x hx => hns x (List.mem_cons_of_mem c hx))]
    congr 1
    simp

theorem words_cons_space {c : Char} (cs : List Char) (hc : isSpaceChar c = true) :
    words (c :: cs) = words cs := by
  rw [words, wordsAux, if_pos (by simp [hc])]
  rfl

theorem words_dropWhile_space (cs : List Char) :
    words (cs.dropWhile isSpaceChar) = words cs := by
  induction cs with
  | nil => rfl
  | cons c cs ih =>
    by_cases hc : isSpaceChar c
    · rw [List.dropWhile_cons, if_pos (by simp [hc]), ih, words_cons_space cs hc]
    · rw [List.dropWhile_cons, if_neg (by simp [hc])]

theorem wordsAux_ne_nil (cur : List Char) :
    ∀ l : List Char, cur ≠ [] → wordsAux cur l ≠ [] := by
  intro l
  induction l generalizing cur with
  | nil => intro h; simp [wordsAux, h]
  | cons c cs ih =>
    intro h
    rw [wordsAux]
    by_cases hc : isSpaceChar c
    · rw [if_pos (by simp [hc]), if_neg (by simp [h])]
      simp
    · rw [if_neg (by simp [hc])]
      exact ih _ (by simp)

theorem words_word_append {w rest : List Char} (hw : w ≠ [])
    (hns : ∀ c ∈ w, isSpaceChar c = false)
    (hrest : ∀ c, rest.head? = some c → isSpaceChar c = true) :
    words (w ++ rest) = w :: words rest := by
  rw [words, wordsAux_nonspace_append w [] rest hns]
  match rest with
  | [] =>
    rw [wordsAux, if_neg (by simp [hw])]
    simp [words, wordsAux]
  | c :: rest' =>
    have hc : isSpaceChar c = true := hrest c rfl
    rw [wordsAux, if_pos (by simp [hc]), if_neg (by simp [hw])]
    rw [words_cons_space rest' hc]
    simp [words]

theorem collapseWS_nonspace_append {w : List Char} (hw : w ≠ [])
    (hns : ∀ c ∈ w, isSpaceChar c = false) :
    ∀ (b : Bool) (xs : List Char), collapseWS b (w ++ xs) = w ++ collapseWS false xs := by
  induction w with
  | nil => exact absurd rfl hw
  | cons c w ih =>
    intro b xs
    have hc : isSpaceChar c = false := hns c (List.mem_cons_self c w)
    rw [List.cons_append, collapseWS, if_neg (by simp [hc])]
    match w with
    | [] => simp
    | c2 :: w2 =>
      rw [ih (by simp) (fun x hx => hns x (List.mem_cons_of_mem c hx)) false xs]
      rfl

theorem collapseWS_true_spaces {sp : List Char} (hsp : ∀ c ∈ sp, isSpaceChar c = true) :
    ∀ xs : List Char, collapseWS true (sp ++ xs) = collapseWS true xs := by
  induction sp with
  | nil => intro xs; rfl
  | cons c sp ih =>
    intro xs
    rw [List.cons_append, collapseWS, if_pos (by simp [hsp c (List.mem_cons_self c sp)])]
    exact ih (fun x hx => hsp x (List.mem_cons_of_mem c hx)) xs

theorem collapseWS_true_eq_false {xs : List Char}
    (h : ∀ c, xs.head? = some c → isSpaceChar c = false) :
    collapseWS true xs = collapseWS false xs := by
  match xs with
  | [] => rfl
  | c :: rest =>
    have hc := h c rfl
    rw [collapseWS, collapseWS, if_neg (by simp [hc]), if_neg (by simp [hc])]

theorem collapseWS_nonspace {w : List Char} (hns : ∀ c ∈ w, isSpaceChar c = false)
    (b : Bool) : collapseWS b w = w := by
  match hw : w with
  | [] => cases b <;> rfl
  | c :: w' =>
    have := collapseWS_nonspace_append (w := c :: w') (by simp) hns b []
    simpa [collapseWS] using this

theorem stripTrail_allspace {cs : List Char} (h : ∀ c ∈ cs, isSpaceChar c = true) :
    stripTrail cs = [] := by
  unfold stripTrail
  rw [List.dropWhile_eq_nil_iff.mpr (fun x hx => h x (List.mem_reverse.mp hx))]
  rfl

theorem stripTrail_nonspace {w : List Char} (hns : ∀ c ∈ w, isSpaceChar c = false) :
    stripTrail w = w := by
  unfold stripTrail
  have : w.reverse.dropWhile isSpaceChar = w.reverse := by
    match hrev : w.reverse with
    | [] => rfl
    | a :: rest =>
      have ha : a ∈ w := List.mem_reverse.mp (hrev ▸ List.mem_cons_self a rest)
      rw [List.dropWhile_cons, if_neg (by simp [hns a ha])]
  rw [this, List.reverse_reverse]

theorem stripTrail_append_allspace {xs ys : List Char}
    (h : ∀ c ∈ ys, isSpaceChar c = true) : stripTrail (xs ++ ys) = stripTrail xs := by
  unfold stripTrail
  rw [List.reverse_append, List.dropWhile_append]
  rw [List.dropWhile_eq_nil_iff.mpr (fun x hx => h x (List.mem_reverse.mp hx))]
  simp

theorem stripTrail_append_of_nonspace {xs ys : List Char}
    (h : ∃ c ∈ ys, isSpaceChar c = false) :
    stripTrail (xs ++ ys) = xs ++ stripTrail ys := by
  unfold stripTrail
  rw [List.reverse_append, List.dropWhile_append]
  have hne : (ys.reverse.dropWhile isSpaceChar).isEmpty = false := by
    obtain ⟨c, hc, hcs⟩ := h
    rw [Bool.eq_false_iff]
    intro hempty
    rw [List.isEmpty_iff, List.dropWhile_eq_nil_iff] at hempty
    exact absurd (hempty c (List.mem_reverse.mpr hc)) (by simp [hcs])
  rw [hne]
  simp

theorem stripTrail_decomp (l : List Char) :
    ∃ sfx, (∀ c ∈ sfx, isSpaceChar c = true) ∧ l = stripTrail l ++ sfx := by
  refine ⟨(l.reverse.takeWhile isSpaceChar).reverse, ?_, ?_⟩
  · intro c hc
    exact List.mem_takeWhile_imp (List.mem_reverse.mp hc)
  · unfold stripTrail
    rw [← List.reverse_append, List.takeWhile_append_dropWhile, List.reverse_reverse]

theorem stripTrail_head {l : List Char} {c : Char} (hhead : l.head? = some c)
    (hc : isSpaceChar c = false) :
    stripTrail l ≠ [] ∧ (stripTrail l).head? = some c := by
  obtain ⟨sfx, hsfx, hdec⟩ := stripTrail_decomp l
  match hst : stripTrail l with
  | [] =>
    rw [hst, List.nil_append] at hdec
    exfalso
    match l, hhead, hdec with
    | a :: as, hhead, hdec =>
      have ha : a = c := by simpa using hhead
      subst ha
      subst hdec
      exact absurd (hsfx a (List.mem_cons_self a as)) (by simp [hc])
  | d :: st' =>
    rw [hst] at hdec
    refine ⟨by simp, ?_⟩
    rw [hdec] at hhead
    simpa using hhead

/-- Key normalization lemma: on input without leading whitespace,
`strip`-trailing plus whitespace-collapsing equals re-joining the
whitespace-split tokens with single spaces. -/
theorem collapseWS_stripTrail_eq_unwords :
    ∀ (n : Nat) (cs : List Char), cs.length ≤ n →
      (∀ c, cs.head? = some c → isSpaceChar c = false) →
      collapseWS false (stripTrail cs) = unwords (words cs) := by
  intro n
  induction n with
  | zero =>
    intro cs hlen _
    match cs, hlen with
    | [], _ => rfl
  | succ n ih =>
    intro cs hlen hhead
    match hcs : cs with
    | [] => rfl
    | c0 :: cs' =>
      have hc0 : isSpaceChar c0 = false := hhead c0 rfl
      set w := (c0 :: cs').takeWhile (fun c => !isSpaceChar c) with hw
      set rest := (c0 :: cs').dropWhile (fun c => !isSpaceChar c) with hrest
      have hsplit : w ++ rest = c0 :: cs' := List.takeWhile_append_dropWhile _ _
      have hwne : w ≠ [] := by
        rw [hw, List.takeWhile_cons, if_pos (by simp [hc0])]
        simp
      have hwns : ∀ c ∈ w, isSpaceChar c = false := by
        intro c hc
        have := List.mem_takeWhile_imp hc
        simpa using this
      have hresthead : ∀ c, rest.head? = some c → isSpaceChar c = true := by
        intro c hc
        have := List.head?_dropWhile_not (fun c => !isSpaceChar c) (c0 :: cs')
        rw [← hrest, hc] at this
        simpa using this
      by_cases hall : ∀ c ∈ rest, isSpaceChar c = true
      · -- everything after the first word is trailing whitespace
        rw [← hsplit, stripTrail_append_allspace hall, stripTrail_nonspace hwns,
          collapseWS_nonspace hwns, words_word_append hwne hwns hresthead]
        have : words rest = [] := by
          rw [← words_dropWhile_space, List.dropWhile_eq_nil_iff.mpr hall]
          rfl
        rw [this]
        rfl
      · -- a later word exists
        push_neg at hall
        obtain ⟨cx, hcx, hcxs⟩ := hall
        have hcxs' : isSpaceChar cx = false := by simpa using hcxs
        set sp := rest.takeWhile isSpaceChar with hsp
        set rest' := rest.dropWhile isSpaceChar with hrest'
        have hsplit2 : sp ++ rest' = rest := List.takeWhile_append_dropWhile _ _
        have hspall : ∀ c ∈ sp, isSpaceChar c = true := fun c hc => List.mem_takeWhile_imp hc
        have hrestne : rest ≠ [] := by
          intro h; rw [h] at hcx; cases hcx
        have hspne : sp ≠ [] := by
          match hr2 : rest, hrestne with
          | r0 :: rs, _ =>
            have hr0 : isSpaceChar r0 = true := hresthead r0 rfl
            rw [hsp, List.takeWhile_cons, if_pos hr0]
            simp
        have hrest'head : ∀ c, rest'.head? = some c → isSpaceChar c = false := by
          intro c hc
          have := List.head?_dropWhile_not isSpaceChar rest
          rw [← hrest', hc] at this
          simpa using this
        have hrest'ne : rest' ≠ [] := by
          intro h
          rw [hrest', List.dropWhile_eq_nil_iff] at h
          exact absurd (h cx hcx) (by simp [hcxs'])
        have hlt : rest'.length ≤ n := by
          have h1 : w.length + rest.length = cs'.length + 1 := by
            have := congrArg List.length hsplit
            simpa using this
          have h2 : sp.length + rest'.length = rest.length := by
            have := congrArg List.length hsplit2
            simpa using this
          have hw1 : 1 ≤ w.length := by
            match w, hwne with
            | a :: l, _ => simp
          have hsp1 : 1 ≤ sp.length := by
            match sp, hspne with
            | a :: l, _ => simp
          simp at hlen
          omega
        have hex : ∃ c ∈ rest', isSpaceChar c = false := by
          refine ⟨rest'.head (by simpa using hrest'ne), ?_, ?_⟩
          · exact List.head_mem _
          · exact hrest'head _ (List.head?_eq_head _)
        -- left-hand side
        have hLHS : collapseWS false (stripTrail (c0 :: cs')) =
            w ++ ' ' :: collapseWS false (stripTrail rest') := by
          rw [← hsplit, ← hsplit2]
          rw [stripTrail_append_of_nonspace (by
            refine ⟨cx, ?_, hcxs'⟩
            rw [hsplit2]; exact hcx)]
          rw [stripTrail_append_of_nonspace hex]
          rw [collapseWS_nonspace_append hwne hwns]
          match hsp2 : sp, hspne with
          | s0 :: sp', _ =>
            have hs0 : isSpaceChar s0 = true := hspall s0 (List.mem_cons_self _ _)
            rw [List.cons_append, collapseWS, if_pos (by simp [hs0])]
            rw [collapseWS_true_spaces (fun c hc => hspall c (List.mem_cons_of_mem s0 hc))]
            rw [collapseWS_true_eq_false (by
              intro c hc
              have hne := hrest'ne
              obtain ⟨sfx, hsfx, hdec⟩ := stripTrail_decomp rest'
              match hr3 : rest', hne with
              | r0 :: rr, _ =>
                have hr0 : isSpaceChar r0 = false := hrest'head r0 rfl
                have hth := (stripTrail_head (l := r0 :: rr) rfl hr0).2
                rw [hth] at hc
                cases hc
                exact hr0)]
            simp
        -- right-hand side
        have hRHS : unwords (words (c0 :: cs')) =
            w ++ ' ' :: unwords (words rest') := by
          rw [← hsplit, words_word_append hwne hwns hresthead]
          have hwr : words rest = words rest' := by
            rw [hrest', words_dropWhile_space]
          rw [hwr]
          have hwne2 : words rest' ≠ [] := by
            match hr3 : rest', hrest'ne with
            | r0 :: rr, _ =>
              have hr0 : isSpaceChar r0 = false := hrest'head r0 rfl
              rw [words, wordsAux, if_neg (by simp [hr0])]
              exact wordsAux_ne_nil [r0] rr (by simp)
          match hws : words rest', hwne2 with
          | q :: ws', _ => rfl
        rw [hLHS, hRHS]
        rw [ih rest' hlt hrest'head]

/-- `norm` turns any string into its whitespace-split tokens joined by single
spaces. -/
theorem normChars_eq_unwords_words (cs : List Char) :
    normChars cs = unwords (words cs) := by
  unfold normChars stripChars
  rw [collapseWS_stripTrail_eq_unwords (cs.dropWhile isSpaceChar).length _ (le_refl _)]
  · rw [words_dropWhile_space]
  · intro c hc
    have := List.head?_dropWhile_not isSpaceChar cs
    rw [hc] at this
    simpa using this

theorem wordsAux_append_space (xs : List Char) :
    ∀ (acc ys : List Char), wordsAux acc (xs ++ ' ' :: ys) =
      wordsAux acc xs ++ wordsAux [] ys := by
  induction xs with
  | nil =>
    intro acc ys
    by_cases hacc : acc.isEmpty
    · have : acc = [] := by simpa using hacc
      subst this
      simp [wordsAux, isSpaceChar]
    · simp only [List.nil_append, wordsAux, isSpaceChar]
      simp [hacc]
  | cons c xs ih =>
    intro acc ys
    by_cases hc : isSpaceChar c
    · by_cases hacc : acc.isEmpty
      · have : acc = [] := by simpa using hacc
        subst this
        simp [wordsAux, hc, ih]
      · simp [wordsAux, hc, hacc, ih]
    · simp [wordsAux, hc, ih]

theorem words_joinSp : ∀ ps : List (List Char),
    words (joinSp ps) = ps.flatMap words := by
  intro ps
  induction ps with
  | nil => rfl
  | cons p rest ih =>
    match rest with
    | [] => simp [joinSp]
    | q :: rest' =>
      rw [joinSp, words, wordsAux_append_space]
      rw [show wordsAux [] (joinSp (q :: rest')) = words (joinSp (q :: rest')) from rfl, ih]
      · simp [words, List.flatMap_cons]
      · simp

/-- C5.  `collapse_row` discards the cells whose trimmed text is empty or a
placeholder, and the result is exactly the remaining cells' whitespace-split
tokens joined by single spaces (single internal spaces, no leading/trailing
whitespace); in particular the spec's example row normalizes as stated. -/
theorem claim_C5 :
    (∀ cells : List String, collapse_row cells =
      (⟨unwords (((cells.filter keepCell).map String.data).flatMap words)⟩ : String)) ∧
    collapse_row ["", "12", "  SMITH   Jane ", "USA", "None"] = "12 SMITH Jane USA" := by
  constructor
  · intro cells
    unfold collapse_row
    exact congrArg String.mk (by rw [normChars_eq_unwords_words, words_joinSp])
  · decide

/-! ## C4: `parse_dscore_line` -/

theorem decNum2_rest {cs rest : List Char} {v : Rat}
    (h : decNum2 cs = some (v, rest)) : rest = cs.drop 6 := by
  unfold decNum2 at h
  split at h
  · split at h
    · injection h with h1
      injection h1 with _ h2
      simp [← h2]
    · cases h
  · cases h

theorem decNum1_rest {cs rest : List Char} {v : Rat}
    (h : decNum1 cs = some (v, rest)) : rest = cs.drop 5 := by
  unfold decNum1 at h
  split at h
  · split at h
    · injection h with h1
      injection h1 with _ h2
      simp [← h2]
    · cases h
  · cases h

theorem matchFloatHere_rest {cs rest : List Char} {v : Rat}
    (h : matchFloatHere cs = some (v, rest)) :
    rest = cs.drop 5 ∨ rest = cs.drop 6 := by
  unfold matchFloatHere at h
  match h2 : decNum2 cs with
  | some p =>
    rw [h2] at h
    simp only [Option.orElse] at h
    match p, h2, h with
    | (v2, r2), h2, h =>
      simp only [Option.some.injEq, Prod.mk.injEq] at h
      right
      rw [← h.2]
      exact decNum2_rest h2
  | none =>
    rw [h2] at h
    simp only [Option.orElse] at h
    left
    exact decNum1_rest h

theorem matchFloatHere_nil : matchFloatHere [] = none := rfl

theorem findFloatsGo_eq_nil : ∀ (fuel : Nat) (cs : List Char), cs.length ≤ fuel →
    (findFloatsGo fuel cs = [] ↔ ∀ k, matchFloatHere (cs.drop k) = none) := by
  intro fuel
  induction fuel with
  | zero =>
    intro cs hcs
    have : cs = [] := List.length_eq_zero.mp (Nat.le_zero.mp hcs)
    subst this
    simp [findFloatsGo, matchFloatHere_nil]
  | succ fuel ih =>
    intro cs hcs
    match cs with
    | [] => simp [findFloatsGo, matchFloatHere_nil]
    | c :: rest =>
      match hm : matchFloatHere (c :: rest) with
      | some (v, restHd) =>
        simp only [findFloatsGo, hm]
        constructor
        · intro h; cases h
        · intro h
          have := h 0
          rw [List.drop_zero, hm] at this
          cases this
      | none =>
        simp only [findFloatsGo, hm]
        have hrl : rest.length ≤ fuel := by
          simp only [List.length_cons] at hcs; omega
        rw [ih rest hrl]
        constructor
        · intro h k
          match k with
          | 0 => rw [List.drop_zero]; exact hm
          | k + 1 => rw [List.drop_succ_cons]; exact h k
        · intro h k
          have := h (k + 1)
          rwa [List.drop_succ_cons] at this

theorem findFloatsGo_last : ∀ (fuel : Nat) (cs : List Char), cs.length ≤ fuel →
    ∀ v : Rat, (findFloatsGo fuel cs).getLast? = some v →
      ∃ k rest, matchFloatHere (cs.drop k) = some (v, rest) ∧
        ∀ m, matchFloatHere (rest.drop m) = none := by
  intro fuel
  induction fuel with
  | zero =>
    intro cs hcs v hv
    cases hv
  | succ fuel ih =>
    intro cs hcs v hv
    match cs with
    | [] => cases hv
    | c :: rest =>
      match hm : matchFloatHere (c :: rest) with
      | none =>
        simp only [findFloatsGo, hm] at hv
        have hrl : rest.length ≤ fuel := by
          simp only [List.length_cons] at hcs; omega
        obtain ⟨k, r2, h1, h2⟩ := ih rest hrl v hv
        exact ⟨k + 1, r2, by rw [List.drop_succ_cons]; exact h1, h2⟩
      | some (v0, restAfter) =>
        simp only [findFloatsGo, hm] at hv
        have hlen : restAfter.length ≤ fuel := by
          rcases matchFloatHere_rest hm with h5 | h6
          · rw [h5]; simp only [List.length_drop, List.length_cons]
            simp only [List.length_cons] at hcs; omega
          · rw [h6]; simp only [List.length_drop, List.length_cons]
            simp only [List.length_cons] at hcs; omega
        match ht : findFloatsGo fuel restAfter with
        | [] =>
          rw [ht] at hv
          simp only [List.getLast?_singleton, Option.some.injEq] at hv
          subst hv
          refine ⟨0, restAfter, by rw [List.drop_zero]; exact hm, ?_⟩
          intro m
          have := (findFloatsGo_eq_nil fuel restAfter hlen).mp ht
          exact this m
        | x :: t =>
          rw [ht, List.getLast?_cons_cons] at hv
          have hv2 : (findFloatsGo fuel restAfter).getLast? = some v := by
            rw [ht]
            exact hv
          obtain ⟨k, r2, h1, h2⟩ := ih restAfter hlen v hv2
          rcases matchFloatHere_rest hm with h5 | h6
          · refine ⟨k + 5, r2, ?_, h2⟩
            rw [show (c :: rest).drop (k + 5) = ((c :: rest).drop 5).drop k from by
              rw [List.drop_drop, Nat.add_comm], ← h5]
            exact h1
          · refine ⟨k + 6, r2, ?_, h2⟩
            rw [show (c :: rest).drop (k + 6) = ((c :: rest).drop 6).drop k from by
              rw [List.drop_drop, Nat.add_comm], ← h6]
            exact h1

theorem drop_cons_of_get? {cs : List Char} {i : Nat} {a : Char} (h : cs.get? i = some a) :
    cs.drop i = a :: cs.drop (i + 1) := by
  rw [List.get?_eq_getElem?] at h
  obtain ⟨hlt, hval⟩ := List.getElem?_eq_some.mp h
  rw [List.drop_eq_getElem_cons hlt, hval]

theorem glueAt_iff (cs : List Char) (i : Nat) :
    glueAt cs i = true ↔
      5 ≤ i ∧ ∃ a c d e f rest,
        cs.drop (i - 5) = a :: '.' :: c :: d :: e :: f :: rest ∧
        isDigitChar a = true ∧ isDigitChar c = true ∧ isDigitChar d = true ∧
        isDigitChar e = true ∧ isDigitChar f = true := by
  constructor
  · intro h
    unfold glueAt at h
    split at h
    · rename_i a b c d e f h0 h1 h2 h3 h4 h5
      simp only [Bool.and_eq_true, decide_eq_true_eq] at h
      obtain ⟨⟨⟨⟨⟨⟨h5i, hda⟩, hb⟩, hdc⟩, hdd⟩, hde⟩, hdf⟩ := h
      subst hb
      refine ⟨h5i, a, c, d, e, f, cs.drop (i + 1), ?_, hda, hdc, hdd, hde, hdf⟩
      rw [drop_cons_of_get? h0, show i - 5 + 1 = i - 4 from by omega,
        drop_cons_of_get? h1, show i - 4 + 1 = i - 3 from by omega,
        drop_cons_of_get? h2, show i - 3 + 1 = i - 2 from by omega,
        drop_cons_of_get? h3, show i - 2 + 1 = i - 1 from by omega,
        drop_cons_of_get? h4, show i - 1 + 1 = i from by omega,
        drop_cons_of_get? h5]
    · cases h
  · rintro ⟨h5i, a, c, d, e, f, rest, hdrop, hda, hdc, hdd, hde, hdf⟩
    have key : ∀ j : Nat, cs.get? (i - 5 + j) =
        (a :: '.' :: c :: d :: e :: f :: rest).get? j := by
      intro j
      rw [← hdrop]
      exact (List.get?_drop cs (i - 5) j).symm
    have g0 : cs.get? (i - 5) = some a := by simpa using key 0
    have g1 : cs.get? (i - 4) = some '.' := by
      have := key 1; rw [show i - 5 + 1 = i - 4 from by omega] at this; simpa using this
    have g2 : cs.get? (i - 3) = some c := by
      have := key 2; rw [show i - 5 + 2 = i - 3 from by omega] at this; simpa using this
    have g3 : cs.get? (i - 2) = some d := by
      have := key 3; rw [show i - 5 + 3 = i - 2 from by omega] at this; simpa using this
    have g4 : cs.get? (i - 1) = some e := by
      have := key 4; rw [show i - 5 + 4 = i - 1 from by omega] at this; simpa using this
    have g5 : cs.get? i = some f := by
      have := key 5; rw [show i - 5 + 5 = i from by omega] at this; simpa using this
    unfold glueAt
    rw [g0, g1, g2, g3, g4, g5]
    simp [h5i, hda, hdc, hdd, hde, hdf]

theorem getLast?_none_iff {α : Type} : ∀ l : List α, l.getLast? = none ↔ l = [] := by
  intro l
  match l with
  | [] => simp
  | [a] => simp
  | a :: b :: t =>
    rw [List.getLast?_cons_cons]
    constructor
    · intro h
      have := (getLast?_none_iff (b :: t)).mp h
      cases this
    · intro h
      cases h

/-- C4.  `parse_dscore_line` first de-glues the normalized line by inserting a
space exactly where a 3-decimal number (`digit '.' digit digit digit`) is
immediately followed by another digit, extracts the `D_SCORE_RK` triplets from
the de-glued line, and returns as Total the value of the last `\d{1,2}\.\d{3}`
match anywhere in the de-glued line — computed by the float scan alone,
independent of the triplet matches; Total is `none` exactly when no position
of the de-glued line starts a 3-decimal float match. -/
theorem claim_C4 :
    (∀ line : String, parse_dscore_line line =
      (findTripletsGo (deGlue (normChars line.data)).length (deGlue (normChars line.data)),
       (findFloatsGo (deGlue (normChars line.data)).length
          (deGlue (normChars line.data))).getLast?)) ∧
    (∀ (cs : List Char) (i : Nat), glueAt cs i = true ↔
      5 ≤ i ∧ ∃ a c d e f rest,
        cs.drop (i - 5) = a :: '.' :: c :: d :: e :: f :: rest ∧
        isDigitChar a = true ∧ isDigitChar c = true ∧ isDigitChar d = true ∧
        isDigitChar e = true ∧ isDigitChar f = true) ∧
    (∀ line : String, (parse_dscore_line line).2 = none ↔
      ∀ k, matchFloatHere ((deGlue (normChars line.data)).drop k) = none) ∧
    (∀ (line : String) (v : Rat), (parse_dscore_line line).2 = some v →
      ∃ k rest,
        matchFloatHere ((deGlue (normChars line.data)).drop k) = some (v, rest) ∧
        ∀ m, matchFloatHere (rest.drop m) = none) := by
  refine ⟨fun line => rfl, glueAt_iff, fun line => ?_, fun line v h => ?_⟩
  · show (findFloatsGo _ _).getLast? = none ↔ _
    rw [getLast?_none_iff]
    exact findFloatsGo_eq_nil _ _ le_rfl
  · exact findFloatsGo_last _ _ le_rfl v h

/-- C4 witness: on the sample difficulty line the Total is `53.933` (the
trailing all-around total, which is not part of any triplet), and applying
the claim exhibits the last-float match position with nothing matching after
it. -/
theorem claim_C4_witness :
    (parse_dscore_line demoDLine).2 =
      some ((natOfDigits ['5', '3'] : Rat) + (natOfDigits ['9', '3', '3'] : Rat) / 1000) ∧
    ∃ k rest,
      matchFloatHere ((deGlue (normChars demoDLine.data)).drop k) =
        some (((natOfDigits ['5', '3'] : Rat) +
          (natOfDigits ['9', '3', '3'] : Rat) / 1000), rest) ∧
      ∀ m, matchFloatHere (rest.drop m) = none :=
  ⟨rfl, claim_C4.2.2.2 demoDLine _ rfl⟩

end Gym




